import Mathlib

/-!
Verification of `pattern_agentic_messaging`: a shallow embedding of the
codec (`messages.py`), the session state machine (`session.py`) and the
multiplexer / dispatch loop (`app.py`), with theorems settling the frozen
claims about the library.

Modelling conventions:
* Python `bytes` values are `List Nat` with entries below 256.
* Python `str` values are `List Nat` of Unicode scalar values
  (lone surrogate code points, which CPython strings may carry, are outside
  the model; `str.encode` is total on the modelled strings).
* JSON numbers are modelled as integers.  Floating-point literals
  (fraction or exponent parts, `NaN`, `Infinity`) are outside the model:
  the embedded parser rejects them where CPython would build a float.
* Python dict values that `json.dumps` cannot serialize (bytes, sets, ...)
  are modelled by the constructors `blob` and `pyobj` of `JsonValue`.
-/

namespace PAMessaging

set_option maxHeartbeats 2000000

/-- A Python value that can sit inside a decoded / to-be-encoded mapping.
`null`, `bool`, `num`, `str`, `arr`, `obj` are the JSON-serializable
shapes; `blob` models a Python `bytes` object stored in a dict and
`pyobj` any other non-JSON-serializable Python object (set, function...).
Strings are lists of Unicode scalar values. -/
inductive JsonValue where
  | null : JsonValue
  | bool (b : Bool) : JsonValue
  | num (n : Int) : JsonValue
  | str (s : List Nat) : JsonValue
  | arr (elems : List JsonValue) : JsonValue
  | obj (members : List (List Nat × JsonValue)) : JsonValue
  | blob (b : List Nat) : JsonValue
  | pyobj (tag : Nat) : JsonValue

/-- A payload accepted by `encode_message` (`MessagePayload = bytes | str | dict`). -/
inductive Payload where
  | bytes (b : List Nat) : Payload
  | text (s : List Nat) : Payload
  | structured (members : List (List Nat × JsonValue)) : Payload

/-- The result of `decode_message`: raw bytes, UTF-8 text, or whatever
`json.loads` produced (which need not be a mapping). -/
inductive Decoded where
  | bytes (b : List Nat) : Decoded
  | text (s : List Nat) : Decoded
  | json (v : JsonValue) : Decoded

mutual
/-- Structural Boolean equality on `JsonValue` (Python `==` on the
corresponding values, restricted to the modelled shapes). -/
def jeqV : JsonValue → JsonValue → Bool
  | .null, .null => true
  | .bool a, .bool b => a == b
  | .num a, .num b => a == b
  | .str a, .str b => a == b
  | .arr a, .arr b => jeqL a b
  | .obj a, .obj b => jeqM a b
  | .blob a, .blob b => a == b
  | .pyobj a, .pyobj b => a == b
  | _, _ => false
def jeqL : List JsonValue → List JsonValue → Bool
  | [], [] => true
  | x :: xs, y :: ys => jeqV x y && jeqL xs ys
  | _, _ => false
def jeqM : List (List Nat × JsonValue) → List (List Nat × JsonValue) → Bool
  | [], [] => true
  | (k1, v1) :: xs, (k2, v2) :: ys => k1 == k2 && jeqV v1 v2 && jeqM xs ys
  | _, _ => false
end

/-- Association-list lookup, modelling Python `dict.get` on a decoded
mapping (first binding wins; the modelled dicts never repeat a key). -/
def lookupMember (ms : List (List Nat × JsonValue)) (k : List Nat) : Option JsonValue :=
  match ms with
  | [] => none
  | (k2, v) :: rest => if k2 = k then some v else lookupMember rest k

/-- Python `d[k] = v` on an insertion-ordered dict: replace in place if the
key exists, else append. -/
def addMember (ms : List (List Nat × JsonValue)) (k : List Nat) (v : JsonValue) :
    List (List Nat × JsonValue) :=
  match ms with
  | [] => [(k, v)]
  | (k2, v2) :: rest =>
      if k2 = k then (k2, v) :: rest else (k2, v2) :: addMember rest k v

/-! ## UTF-8 (CPython `str.encode('utf-8')` / `bytes.decode('utf-8', errors='strict')`) -/
/-- UTF-8 encoding of one Unicode scalar value. -/
def utf8EncChar (c : Nat) : List Nat :=
  if c < 0x80 then [c]
  else if c < 0x800 then [0xC0 + c / 64, 0x80 + c % 64]
  else if c < 0x10000 then [0xE0 + c / 4096, 0x80 + c / 64 % 64, 0x80 + c % 64]
  else [0xF0 + c / 0x40000, 0x80 + c / 4096 % 64, 0x80 + c / 64 % 64, 0x80 + c % 64]

/-- `str.encode('utf-8')` on a string of Unicode scalar values. -/
def utf8Encode (s : List Nat) : List Nat := s.flatMap utf8EncChar

/-- Strict UTF-8 decoding of one scalar value: rejects continuation-byte
leads, overlong forms, surrogates and code points above U+10FFFF, exactly
as CPython's strict decoder does.  Returns the scalar and the remaining
bytes. -/
def utf8DecOne : List Nat → Option (Nat × List Nat)
  | [] => none
  | b0 :: rest =>
    if b0 < 0x80 then some (b0, rest)
    else if b0 < 0xC2 then none
    else if b0 < 0xE0 then
      match rest with
      | b1 :: r =>
        if 0x80 ≤ b1 ∧ b1 < 0xC0 then some ((b0 - 0xC0) * 64 + (b1 - 0x80), r) else none
      | _ => none
    else if b0 < 0xF0 then
      match rest with
      | b1 :: b2 :: r =>
        if (0x80 ≤ b1 ∧ b1 < 0xC0) ∧ (0x80 ≤ b2 ∧ b2 < 0xC0) ∧
           (b0 = 0xE0 → 0xA0 ≤ b1) ∧ (b0 = 0xED → b1 < 0xA0) then
          some ((b0 - 0xE0) * 4096 + (b1 - 0x80) * 64 + (b2 - 0x80), r)
        else none
      | _ => none
    else if b0 < 0xF5 then
      match rest with
      | b1 :: b2 :: b3 :: r =>
        if (0x80 ≤ b1 ∧ b1 < 0xC0) ∧ (0x80 ≤ b2 ∧ b2 < 0xC0) ∧ (0x80 ≤ b3 ∧ b3 < 0xC0) ∧
           (b0 = 0xF0 → 0x90 ≤ b1) ∧ (b0 = 0xF4 → b1 < 0x90) then
          some ((b0 - 0xF0) * 0x40000 + (b1 - 0x80) * 4096 + (b2 - 0x80) * 64 + (b3 - 0x80), r)
        else none
      | _ => none
    else none

/-- Fuelled strict UTF-8 decoding loop (the fuel only needs to reach the
number of decoded characters, so the byte count always suffices). -/
def utf8DecAux : Nat → List Nat → Option (List Nat)
  | _, [] => some []
  | 0, _ :: _ => none
  | fuel + 1, bs =>
    match utf8DecOne bs with
    | none => none
    | some (c, r) => (utf8DecAux fuel r).map (fun t => c :: t)

/-- `bytes.decode('utf-8', errors='strict')`, returning `none` where CPython
raises `UnicodeDecodeError`. -/
def utf8Decode (bs : List Nat) : Option (List Nat) := utf8DecAux bs.length bs

/-- A Unicode scalar value: below U+110000 and not a surrogate. -/
def IsScalar (c : Nat) : Prop := c < 0x110000 ∧ ¬ (0xD800 ≤ c ∧ c ≤ 0xDFFF)

instance (c : Nat) : Decidable (IsScalar c) := by unfold IsScalar; infer_instance

/-! ## JSON serialization: `json.dumps(payload)` with default options
(`ensure_ascii=True`, separators `", "` and `": "`, insertion key order). -/
/-- Lower-case hexadecimal digit, for arguments below 16. -/
def hexDigit (n : Nat) : Nat := if n < 10 then 48 + n else 87 + n

/-- The six-character escape `\uXXXX` of a code unit below 0x10000. -/
def uEsc (c : Nat) : List Nat :=
  [92, 117, hexDigit (c / 4096 % 16), hexDigit (c / 256 % 16),
   hexDigit (c / 16 % 16), hexDigit (c % 16)]

/-- `json.dumps` ASCII escaping of one character: the two-character named
escapes, `\uXXXX` for other control and non-ASCII characters, and a
surrogate pair of escapes for astral characters. -/
def escChar (c : Nat) : List Nat :=
  if c = 34 then [92, 34]
  else if c = 92 then [92, 92]
  else if c = 10 then [92, 110]
  else if c = 9 then [92, 116]
  else if c = 13 then [92, 114]
  else if c = 8 then [92, 98]
  else if c = 12 then [92, 102]
  else if c < 32 then uEsc c
  else if c < 0x7F then [c]
  else if c < 0x10000 then uEsc c
  else uEsc (0xD800 + (c - 0x10000) / 1024) ++ uEsc (0xDC00 + (c - 0x10000) % 1024)

/-- A JSON string literal: quote, escaped characters, quote. -/
def dumpStr (s : List Nat) : List Nat := 34 :: (s.flatMap escChar ++ [34])

/-- Decimal digits of `n` (most significant first), fuelled; `natDigits`
supplies `n` itself as fuel, which always suffices. -/
def natDigitsF : Nat → Nat → List Nat → List Nat
  | 0, n, acc => (48 + n % 10) :: acc
  | f + 1, n, acc => if n < 10 then (48 + n) :: acc else natDigitsF f (n / 10) ((48 + n % 10) :: acc)

/-- Decimal representation of a natural number. -/
def natDigits (n : Nat) : List Nat := natDigitsF n n []

/-- Decimal representation of an integer (`repr` of a Python int). -/
def dumpInt (i : Int) : List Nat :=
  if i < 0 then 45 :: natDigits i.natAbs else natDigits i.natAbs

mutual
/-- `json.dumps` on a modelled Python value; `none` models the `TypeError`
raised on a non-serializable value (`blob` / `pyobj`). -/
def dumpsV : JsonValue → Option (List Nat)
  | .null => some [110, 117, 108, 108]
  | .bool true => some [116, 114, 117, 101]
  | .bool false => some [102, 97, 108, 115, 101]
  | .num i => some (dumpInt i)
  | .str s => some (dumpStr s)
  | .arr es => (dumpsL es).map (fun x => 91 :: (x ++ [93]))
  | .obj ms => (dumpsM ms).map (fun x => 123 :: (x ++ [125]))
  | .blob _ => none
  | .pyobj _ => none
/-- Array elements joined by the default `", "` separator. -/
def dumpsL : List JsonValue → Option (List Nat)
  | [] => some []
  | [v] => dumpsV v
  | v :: rest => do
      let dv ← dumpsV v
      let dr ← dumpsL rest
      some (dv ++ 44 :: 32 :: dr)
/-- Object members `"key": value` joined by the default `", "` separator. -/
def dumpsM : List (List Nat × JsonValue) → Option (List Nat)
  | [] => some []
  | [(k, v)] => (dumpsV v).map (fun dv => dumpStr k ++ 58 :: 32 :: dv)
  | (k, v) :: rest => do
      let dv ← dumpsV v
      let dr ← dumpsM rest
      some (dumpStr k ++ 58 :: 32 :: dv ++ 44 :: 32 :: dr)
end

/-! ## JSON parsing: `json.loads` restricted to the integer-number model.
Fraction or exponent parts, `NaN`/`Infinity`, and lone surrogate escapes
make the embedded parser fail where CPython would build a float or a
surrogate-bearing string; those inputs are outside the model. -/
/-- Skip the JSON whitespace characters (space, tab, newline, return). -/
def skipWs : List Nat → List Nat
  | [] => []
  | c :: r => if c = 32 ∨ c = 9 ∨ c = 10 ∨ c = 13 then skipWs r else c :: r

/-- Value of one hexadecimal digit character (either case). -/
def hexVal (c : Nat) : Option Nat :=
  if 48 ≤ c ∧ c ≤ 57 then some (c - 48)
  else if 97 ≤ c ∧ c ≤ 102 then some (c - 87)
  else if 65 ≤ c ∧ c ≤ 70 then some (c - 55)
  else none

/-- Parse the four hex digits of a `\uXXXX` escape (after the `\u`). -/
def parseUEsc : List Nat → Option (Nat × List Nat)
  | h1 :: h2 :: h3 :: h4 :: r =>
    match hexVal h1, hexVal h2, hexVal h3, hexVal h4 with
    | some a, some b, some d, some e => some (a * 4096 + b * 256 + d * 16 + e, r)
    | _, _, _, _ => none
  | _ => none

/-- Parse one escape sequence after the backslash: the named escapes and
`\uXXXX`, joining surrogate pairs and rejecting lone surrogates. -/
def parseEsc : List Nat → Option (Nat × List Nat)
  | [] => none
  | e :: r =>
    if e = 34 then some (34, r)
    else if e = 92 then some (92, r)
    else if e = 47 then some (47, r)
    else if e = 98 then some (8, r)
    else if e = 102 then some (12, r)
    else if e = 110 then some (10, r)
    else if e = 114 then some (13, r)
    else if e = 116 then some (9, r)
    else if e = 117 then
      match parseUEsc r with
      | some (cp, r2) =>
        if 0xD800 ≤ cp ∧ cp ≤ 0xDBFF then
          match r2 with
          | b1 :: b2 :: r3 =>
            if b1 = 92 ∧ b2 = 117 then
              match parseUEsc r3 with
              | some (lo, r4) =>
                if 0xDC00 ≤ lo ∧ lo ≤ 0xDFFF then
                  some (0x10000 + (cp - 0xD800) * 1024 + (lo - 0xDC00), r4)
                else none
              | none => none
            else none
          | _ => none
        else if 0xDC00 ≤ cp ∧ cp ≤ 0xDFFF then none
        else some (cp, r2)
      | none => none
    else none

/-- Parse one item of a string body: `some (none, rest)` at the closing
quote, `some (some c, rest)` for one character (raw or escaped), `none`
on malformed input or a raw control character (CPython `strict=True`). -/
def parseStrChar : List Nat → Option (Option Nat × List Nat)
  | [] => none
  | c :: r =>
    if c = 34 then some (none, r)
    else if c = 92 then (parseEsc r).map (fun p => (some p.1, p.2))
    else if c < 32 then none
    else some (some c, r)

/-- Fuelled string-body scanning loop; every step consumes at least one
input character, so `length + 1` fuel always suffices. -/
def parseStrAux : Nat → List Nat → Option (List Nat × List Nat)
  | 0, _ => none
  | fuel + 1, s =>
    match parseStrChar s with
    | none => none
    | some (none, r) => some ([], r)
    | some (some c, r) => (parseStrAux fuel r).map (fun p => (c :: p.1, p.2))

/-- Parse a string body after the opening quote, handling escapes and
surrogate-pair escapes, rejecting raw control characters. -/
def parseStringBody (s : List Nat) : Option (List Nat × List Nat) :=
  parseStrAux (s.length + 1) s

/-- Is `c` an ASCII decimal digit? -/
def isDigitCode (c : Nat) : Bool := 48 ≤ c && c ≤ 57

/-- Greedily consume decimal digits, accumulating their value. -/
def parseDigitsAcc (a : Nat) : List Nat → Nat × List Nat
  | [] => (a, [])
  | c :: r => if isDigitCode c then parseDigitsAcc (a * 10 + (c - 48)) r else (a, c :: r)

/-- Does the input continue with a fraction or exponent marker
(in CPython this turns the literal into a float, outside the model)? -/
def floatFollows : List Nat → Bool
  | [] => false
  | c :: _ => c = 46 || c = 101 || c = 69

/-- Parse an unsigned integer literal (`0 | [1-9][0-9]*`). -/
def parseNumAbs : List Nat → Option (Nat × List Nat)
  | [] => none
  | c :: r =>
    if c = 48 then
      if floatFollows r then none else some (0, r)
    else if 49 ≤ c ∧ c ≤ 57 then
      let p := parseDigitsAcc (c - 48) r
      if floatFollows p.2 then none else some (p.1, p.2)
    else none

/-- Parse an optionally signed integer literal. -/
def parseNumber (s : List Nat) : Option (Int × List Nat) :=
  match s with
  | 45 :: r => (parseNumAbs r).map (fun p => (-(p.1 : Int), p.2))
  | _ => (parseNumAbs s).map (fun p => ((p.1 : Int), p.2))

/-- Python dict construction from parsed members: successive `d[k] = v`
(later duplicate keys overwrite earlier ones in place). -/
def dedupMembers (ms : List (List Nat × JsonValue)) : List (List Nat × JsonValue) :=
  ms.foldl (fun acc kv => addMember acc kv.1 kv.2) []

/-- Match a literal keyword tail, returning the input after it. -/
def matchLit : List Nat → List Nat → Option (List Nat)
  | [], r => some r
  | l :: ls, r =>
    match r with
    | [] => none
    | c :: cs => if c = l then matchLit ls cs else none

mutual
/-- Fuelled recursive-descent JSON value parser mirroring CPython's
`scan_once` dispatch on the leading character. -/
def parseValue : Nat → List Nat → Option (JsonValue × List Nat)
  | 0, _ => none
  | fuel + 1, s =>
    match s with
    | [] => none
    | c :: r =>
      if c = 123 then
        match skipWs r with
        | [] => none
        | d :: r2 =>
          if d = 125 then some (.obj [], r2)
          else (parseMembers fuel (d :: r2)).map (fun p => (.obj (dedupMembers p.1), p.2))
      else if c = 91 then
        match skipWs r with
        | [] => none
        | d :: r2 =>
          if d = 93 then some (.arr [], r2)
          else (parseElems fuel (d :: r2)).map (fun p => (.arr p.1, p.2))
      else if c = 34 then (parseStringBody r).map (fun p => (.str p.1, p.2))
      else if c = 116 then
        match matchLit [114, 117, 101] r with
        | some t => some (.bool true, t)
        | none => none
      else if c = 102 then
        match matchLit [97, 108, 115, 101] r with
        | some t => some (.bool false, t)
        | none => none
      else if c = 110 then
        match matchLit [117, 108, 108] r with
        | some t => some (.null, t)
        | none => none
      else if c = 45 ∨ isDigitCode c then (parseNumber (c :: r)).map (fun p => (.num p.1, p.2))
      else none
/-- Parse the elements of a non-empty array, starting at the first value. -/
def parseElems : Nat → List Nat → Option (List JsonValue × List Nat)
  | 0, _ => none
  | fuel + 1, s =>
    match parseValue fuel s with
    | none => none
    | some (v, r1) =>
      match skipWs r1 with
      | [] => none
      | d :: t =>
        if d = 93 then some ([v], t)
        else if d = 44 then (parseElems fuel (skipWs t)).map (fun p => (v :: p.1, p.2))
        else none
/-- Parse the members of a non-empty object, starting at the first key. -/
def parseMembers : Nat → List Nat → Option (List (List Nat × JsonValue) × List Nat)
  | 0, _ => none
  | fuel + 1, s =>
    match s with
    | [] => none
    | c :: r =>
      if c = 34 then
        match parseStringBody r with
        | none => none
        | some (k, r1) =>
          match skipWs r1 with
          | [] => none
          | d :: r2 =>
            if d = 58 then
              match parseValue fuel (skipWs r2) with
              | none => none
              | some (v, r3) =>
                match skipWs r3 with
                | [] => none
                | e :: t =>
                  if e = 125 then some ([(k, v)], t)
                  else if e = 44 then
                    (parseMembers fuel (skipWs t)).map (fun p => ((k, v) :: p.1, p.2))
                  else none
            else none
      else none
end

/-- `json.loads` on a string: skip leading whitespace, parse one value,
require only trailing whitespace; `none` where CPython raises
`JSONDecodeError` (or where the input is outside the integer-number,
no-lone-surrogate model). -/
def jsonLoads (s : List Nat) : Option JsonValue :=
  match parseValue (s.length + 1) (skipWs s) with
  | some (v, rest) => if skipWs rest = [] then some v else none
  | none => none

/-! ## Round-trip lemmas: the parser recovers the serializer output -/
/-- JSON whitespace character codes. -/
def wsCode (c : Nat) : Bool := c = 32 || c = 9 || c = 10 || c = 13

/-- After a value, the serializer continues with one of `, ] ` + brace or
end of input. -/
def delimB : List Nat → Bool
  | [] => true
  | c :: _ => c = 44 || c = 93 || c = 125

/-- The remaining input does not begin with a digit. -/
def digitBoundary : List Nat → Prop
  | [] => True
  | c :: _ => isDigitCode c = false

/-- The value accumulated by `parseDigitsAcc` over a digit list. -/
def foldDigits (a : Nat) (ds : List Nat) : Nat :=
  ds.foldl (fun x d => x * 10 + (d - 48)) a

mutual
/-- Well-formedness of a modelled value as the image of a real Python
value: strings hold Unicode scalar values, object keys are distinct
(Python dicts), everything is JSON-serializable. -/
def wfJ : JsonValue → Bool
  | .null => true
  | .bool _ => true
  | .num _ => true
  | .str s => s.all (fun c => decide (IsScalar c))
  | .arr es => wfL es
  | .obj ms => wfM ms
  | .blob _ => false
  | .pyobj _ => false
/-- All values of a list are well-formed. -/
def wfL : List JsonValue → Bool
  | [] => true
  | v :: t => wfJ v && wfL t
/-- Members have scalar keys, well-formed values, and pairwise distinct keys. -/
def wfM : List (List Nat × JsonValue) → Bool
  | [] => true
  | (k, v) :: t =>
      k.all (fun c => decide (IsScalar c)) && wfJ v &&
      t.all (fun kv => decide (kv.1 ≠ k)) && wfM t
end

/-- Key distinctness alone (implied by `wfM`). -/
def keysDistinct : List (List Nat × JsonValue) → Bool
  | [] => true
  | (k, _) :: t => t.all (fun kv => decide (kv.1 ≠ k)) && keysDistinct t

/-- The leading character of serializer output (value start characters). -/
def dumpHeadOK (c : Nat) : Bool :=
  c = 110 || c = 116 || c = 102 || c = 45 || isDigitCode c || c = 34 || c = 91 || c = 123

/-! ## The codec: `messages.py` -/
/-- The library's error classes (`exceptions.py`). -/
inductive PAErr where
  | serializationError : PAErr
  | sessionClosedError : PAErr
  | timeoutError : PAErr
deriving DecidableEq

/-- `encode_message` (`messages.py` lines 6-16): bytes pass through, text
is UTF-8 encoded, a dict is `json.dumps`-serialized then UTF-8 encoded;
a `TypeError`/`ValueError` from `json.dumps` becomes `SerializationError`. -/
def encodeMessage : Payload → Except PAErr (List Nat)
  | .bytes b => .ok b
  | .text s => .ok (utf8Encode s)
  | .structured m =>
    match dumpsV (.obj m) with
    | some ds => .ok (utf8Encode ds)
    | none => .error .serializationError

/-- `decode_message` (`messages.py` lines 18-28): strict UTF-8 decode
(failure returns the raw bytes), a NUL in the text returns the raw bytes,
then `json.loads` (failure returns the text). -/
def decodeMessage (data : List Nat) : Decoded :=
  match utf8Decode data with
  | none => .bytes data
  | some text =>
    if 0 ∈ text then .bytes data
    else
      match jsonLoads text with
      | some v => .json v
      | none => .text text

mutual
/-- Is the value JSON-serializable (no Python bytes / other objects)? -/
def serializableV : JsonValue → Bool
  | .null => true
  | .bool _ => true
  | .num _ => true
  | .str _ => true
  | .arr es => serializableL es
  | .obj ms => serializableM ms
  | .blob _ => false
  | .pyobj _ => false
/-- All list elements serializable. -/
def serializableL : List JsonValue → Bool
  | [] => true
  | v :: t => serializableV v && serializableL t
/-- All member values serializable. -/
def serializableM : List (List Nat × JsonValue) → Bool
  | [] => true
  | (_, v) :: t => serializableV v && serializableM t
end

/-- Which payloads survive `decode(encode(p))` exactly: bytes that do not
strictly decode as NUL-free UTF-8; NUL-free text that does not parse as
JSON; any serializable mapping. -/
def exactRoundTripCond : Payload → Prop
  | .bytes b => utf8Decode b = none ∨ ∃ s, utf8Decode b = some s ∧ 0 ∈ s
  | .text s => 0 ∉ s ∧ jsonLoads s = none
  | .structured _ => True

/-- The decoded result is the same value, in the corresponding shape. -/
def decodedMatches : Payload → Decoded → Prop
  | .bytes b, .bytes b2 => b = b2
  | .text s, .text s2 => s = s2
  | .structured m, .json (.obj m2) => m = m2
  | _, _ => False

/-- The payload is the image of a real Python value (scalar strings,
distinct dict keys). -/
def WFPayload : Payload → Prop
  | .bytes _ => True
  | .text s => ∀ c ∈ s, IsScalar c
  | .structured m => wfJ (.obj m) = true

/-- Is the decoded result one of the three payload shapes named by the
spec: bytes, text (a Python `str`, whether read as plain text or as a
JSON string literal), or a key-value mapping? -/
def isPayloadForm : Decoded → Prop
  | .bytes _ => True
  | .text _ => True
  | .json (.obj _) => True
  | .json (.str _) => True
  | _ => False

/-! ## The session: `session.py` (`PASlimSession`)

The session is modelled as an explicit state: the `_closed` flag, whether
the `_read_loop` task is still running, the `_pending_requests`
correlation table (request-id string to `asyncio.Future` state), the
inbound `_queue`, and the registered callback list (callbacks are opaque
ids; invoking one is recorded in the step's effect). -/
/-- The state of one `asyncio.Future` in `_pending_requests`. -/
inductive FutureState where
  | pending : FutureState
  | resolved (v : Decoded) : FutureState
  | cancelled : FutureState

/-- The modelled state of a `PASlimSession`. -/
structure SessionState where
  closed : Bool
  readTaskAlive : Bool
  pending : List (List Nat × FutureState)
  queue : List Decoded
  callbacks : List Nat

/-- Association-list lookup in the correlation table
(`request_id in self._pending_requests` and indexing). -/
def lookupFut : List (List Nat × FutureState) → List Nat → Option FutureState
  | [], _ => none
  | (k, f) :: rest, rid => if k = rid then some f else lookupFut rest rid

/-- Replace the future stored under a request id. -/
def setFut : List (List Nat × FutureState) → List Nat → FutureState →
    List (List Nat × FutureState)
  | [], _, _ => []
  | (k, f) :: rest, rid, nf =>
    if k = rid then (k, nf) :: rest else (k, f) :: setFut rest rid nf

/-- Remove a request id (`self._pending_requests.pop(request_id, None)`). -/
def popFut : List (List Nat × FutureState) → List Nat → List (List Nat × FutureState)
  | [], _ => []
  | (k, f) :: rest, rid => if k = rid then rest else (k, f) :: popFut rest rid

/-- The key `"_request_id"` as code points. -/
def ridKey : List Nat := [95, 114, 101, 113, 117, 101, 115, 116, 95, 105, 100]

/-- What one iteration of `_read_loop` did with a received message. -/
inductive ReadEffect where
  /-- The message resolved the pending waiter for this id; it was not
  forwarded to callbacks and not enqueued. -/
  | resolvedWaiter (rid : List Nat) : ReadEffect
  /-- The message was delivered normally: every callback in the list was
  invoked with it, then it was enqueued. -/
  | delivered (callbacksInvoked : List Nat) (msg : Decoded) : ReadEffect
  /-- `Future.set_result` raised (`InvalidStateError`); the blanket
  `except` handler hit `break` and the loop terminated. -/
  | loopBroken : ReadEffect

/-- The body of `_read_loop` (`session.py` lines 21-39) applied to one
successfully received and decoded message. -/
def readLoopStep (st : SessionState) (decoded : Decoded) : SessionState × ReadEffect :=
  match decoded with
  | .json (.obj m) =>
    match lookupMember m ridKey with
    | some (.str rid) =>
      match lookupFut st.pending rid with
      | some .pending =>
        ({ st with pending := setFut st.pending rid (.resolved decoded) },
         .resolvedWaiter rid)
      | some _ =>
        -- set_result on a done future raises InvalidStateError; the
        -- except handler breaks out of the loop (session not closed).
        if st.closed then (st, .loopBroken)
        else ({ st with readTaskAlive := false }, .loopBroken)
      | none =>
        ({ st with queue := st.queue ++ [decoded] }, .delivered st.callbacks decoded)
    | _ =>
      ({ st with queue := st.queue ++ [decoded] }, .delivered st.callbacks decoded)
  | _ =>
    ({ st with queue := st.queue ++ [decoded] }, .delivered st.callbacks decoded)

/-- The `while not self._closed` receive loop run over a list of received
messages (the loop also stops after a `break`). -/
def readLoop (st : SessionState) : List Decoded → SessionState × List ReadEffect
  | [] => (st, [])
  | m :: rest =>
    if st.closed || !st.readTaskAlive then (st, [])
    else
      match readLoopStep st m with
      | (st2, .loopBroken) => (st2, [.loopBroken])
      | (st2, eff) =>
        let (st3, effs) := readLoop st2 rest
        (st3, eff :: effs)

/-- `__aexit__` (`session.py` lines 48-55): set `_closed`, cancel and await
the read task.  Nothing else is touched — in particular the pending
futures in the correlation table are left as they are. -/
def sessionExit (st : SessionState) : SessionState :=
  { st with closed := true, readTaskAlive := false }

/-- Result of `send` (`session.py` lines 69-73). -/
inductive SendResult where
  | closedErr : SendResult
  | serializationErr : SendResult
  | sent (wire : List Nat) : SendResult
deriving DecidableEq

/-- `send`: raise `SessionClosedError` if closed, else encode and publish. -/
def sendCall (st : SessionState) (p : Payload) : SendResult :=
  if st.closed then .closedErr
  else
    match encodeMessage p with
    | .error _ => .serializationErr
    | .ok wire => .sent wire

/-- Result of `__anext__` (`session.py` lines 60-67). -/
inductive AnextResult where
  | stopIteration : AnextResult
  | msg (m : Decoded) : AnextResult
  | blockedOnQueue : AnextResult

/-- `__anext__`: `StopAsyncIteration` when closed, else dequeue (blocking
when the queue is empty). -/
def anextCall (st : SessionState) : AnextResult × SessionState :=
  if st.closed then (.stopIteration, st)
  else
    match st.queue with
    | [] => (.blockedOnQueue, st)
    | m :: rest => (.msg m, { st with queue := rest })

/-- The synchronous prefix of `request` (`session.py` lines 78-91): the
closed check, registering the fresh waiter, tagging the payload, and the
`send` — everything up to the `try`/`finally` that guards the `await`.
A failure in `send` (for example `SerializationError` from `encode_message`)
propagates from here, before the `finally` that pops the waiter exists. -/
inductive RequestStart where
  | closedErr : RequestStart
  /-- `send` raised; the state still holds the registered waiter. -/
  | sendRaised (st2 : SessionState) : RequestStart
  /-- The request is on the wire and the caller is awaiting the future. -/
  | awaiting (st2 : SessionState) (wire : List Nat) : RequestStart

/-- The key `"data"` as code points. -/
def dataKey : List Nat := [100, 97, 116, 97]

/-- The wrapper for non-dict request payloads:
`payload = ("_request_id": rid, "data": payload)` with braces. -/
def wrapPayload (rid : List Nat) (p : Payload) : List (List Nat × JsonValue) :=
  match p with
  | .bytes b => [(ridKey, .str rid), (dataKey, .blob b)]
  | .text s => [(ridKey, .str rid), (dataKey, .str s)]
  | .structured m => addMember m ridKey (.str rid)

def requestStart (st : SessionState) (rid : List Nat) (p : Payload) : RequestStart :=
  if st.closed then .closedErr
  else
    let st1 := { st with pending := st.pending ++ [(rid, .pending)] }
    let tagged : Payload := .structured (wrapPayload rid p)
    match sendCall st1 tagged with
    | .closedErr => .sendRaised st1
    | .serializationErr => .sendRaised st1
    | .sent wire => .awaiting st1 wire

/-- How the `await` of the waiter ends. -/
inductive AwaitOutcome where
  | replied (v : Decoded) : AwaitOutcome
  | timedOut : AwaitOutcome

/-- Result of the whole `request` call after the `await`. -/
inductive RequestFinish where
  | success (v : Decoded) (st2 : SessionState) : RequestFinish
  | timeoutErr (st2 : SessionState) : RequestFinish

/-- The `try`/`except`/`finally` around the `await` (`session.py` lines
93-101): a reply returns it, a timeout cancels the future and raises
`TimeoutError`; in both cases the `finally` pops the id from the table. -/
def requestFinish (st : SessionState) (rid : List Nat) (oc : AwaitOutcome) : RequestFinish :=
  match oc with
  | .replied v => .success v { st with pending := popFut st.pending rid }
  | .timedOut => .timeoutErr { st with pending := popFut st.pending rid }

/-! ## The dispatch loop: `app.py` (`on_message` registrations and
`_run_async` routing) -/
/-- One `on_message` registration: `discriminator` is `None` for a
catch-all; `value` is the filter value (Python `None` is the decoded JSON
`null`, which is how `msg.get(disc) == value` compares it); `hid`
identifies the handler function. -/
structure HandlerReg where
  discriminator : Option (List Nat)
  value : JsonValue
  hid : Nat

/-- The pre-scan for the catch-all (`_run_async` lines 162-166): the first
registration with `discriminator is None` wins, then `break`. -/
def findCatchAll : List HandlerReg → Option Nat
  | [] => none
  | h :: t =>
    match h.discriminator with
    | none => some h.hid
    | some _ => findCatchAll t

/-- `msg.get(disc) == val` on a decoded mapping (a missing key gives
Python `None`, i.e. decoded JSON `null`). -/
def filterMatches (m : List (List Nat × JsonValue)) (d : List Nat) (v : JsonValue) : Bool :=
  jeqV ((lookupMember m d).getD .null) v

/-- `isinstance(msg, dict) and msg.get(disc) == val` as one test. -/
def isFilteredMsg (msg : Decoded) (d : List Nat) (v : JsonValue) : Bool :=
  match msg with
  | .json (.obj m) => filterMatches m d v
  | _ => false

/-- The filtered-handler loop (`_run_async` lines 177-196): skip
catch-alls, invoke the first registration whose filter matches, `break`. -/
def scanFiltered : List HandlerReg → Decoded → Option Nat
  | [], _ => none
  | h :: t, msg =>
    match h.discriminator with
    | none => scanFiltered t msg
    | some d =>
      if isFilteredMsg msg d h.value then some h.hid else scanFiltered t msg

/-- What `_run_async` does with one `(session, message)` pair. -/
inductive DispatchResult where
  | handled (hid : Nat) : DispatchResult
  | catchAllInvoked (hid : Nat) : DispatchResult
  | droppedWithWarning : DispatchResult
deriving DecidableEq

/-- The per-message routing of `_run_async` (lines 175-212): try the
filtered handlers, fall back to the catch-all, else log a warning and
drop. -/
def runDispatch (hs : List HandlerReg) (msg : Decoded) : DispatchResult :=
  match scanFiltered hs msg with
  | some i => .handled i
  | none =>
    match findCatchAll hs with
    | some c => .catchAllInvoked c
    | none => .droppedWithWarning

/-- Declarative form of "this registration is a filtered handler whose
filter matches the message". -/
def isFilteredMatch (msg : Decoded) (h : HandlerReg) : Bool :=
  match h.discriminator with
  | none => false
  | some d => isFilteredMsg msg d h.value

/-! ## The multiplexer consumer: `app.py` `messages()` lines 361-380 -/
/-- The observable state of the accept-loop task
(`listener_task.done()` / `listener_task.exception()`). -/
structure ListenerState where
  done : Bool
  exc : Option Nat

/-- What one iteration of the consumer loop does. -/
inductive MuxStep where
  | raised (e : Nat) : MuxStep
  | stoppedCleanly : MuxStep
  | yielded (m : Nat × Decoded) : MuxStep
  | polledTimeout : MuxStep

/-- The `0.1` second timeout passed to `asyncio.wait_for`. -/
def pollTimeout : ℚ := 1 / 10

/-- One iteration of the `while True` consumer loop: first check whether
the listener crashed (re-raise) or ended (stop), then poll the fan-in
queue with the `pollTimeout` bound. -/
def muxIteration (ls : ListenerState) (arrival : Option (Nat × Decoded)) : MuxStep :=
  if ls.done then
    match ls.exc with
    | some e => .raised e
    | none => .stoppedCleanly
  else
    match arrival with
    | some m => .yielded m
    | none => .polledTimeout

/-- Time spent inside one iteration before control returns to the loop
head: zero when the listener is already done (the check raises before
polling), otherwise the `wait_for` bound: the arrival time capped at
`pollTimeout`, or the full `pollTimeout` on a timeout. -/
def iterationWait (ls : ListenerState) (arrivalTime : Option ℚ) : ℚ :=
  if ls.done then 0
  else
    match arrivalTime with
    | some t => min t pollTimeout
    | none => pollTimeout

/-- The consumer loop run until the accept loop fails: `rounds` are the
poll outcomes while the listener is still alive, after which the listener
is done with error `e`. -/
def muxRun (rounds : List (Option (Nat × Decoded))) (e : Nat) :
    List (Nat × Decoded) × MuxStep :=
  match rounds with
  | [] => ([], .raised e)
  | r :: rest =>
    match r with
    | some m => ((m :: (muxRun rest e).1), (muxRun rest e).2)
    | none => muxRun rest e

theorem utf8EncChar_length_pos (c : Nat) : 0 < (utf8EncChar c).length := by
  unfold utf8EncChar
  split <;> simp_all <;> split <;> simp_all <;> split <;> simp_all

theorem utf8DecOne_encChar (c : Nat) (h : IsScalar c) (rest : List Nat) :
    utf8DecOne (utf8EncChar c ++ rest) = some (c, rest) := by
  obtain ⟨hlt, hsur⟩ := h
  by_cases h1 : c < 0x80
  · have henc : utf8EncChar c = [c] := by unfold utf8EncChar; simp [h1]
    rw [henc]
    simp only [List.cons_append, List.nil_append]
    simp only [utf8DecOne]
    simp only [h1, if_true]
  · by_cases h2 : c < 0x800
    · have henc : utf8EncChar c = [0xC0 + c / 64, 0x80 + c % 64] := by
        unfold utf8EncChar; simp [h1, h2]
      rw [henc]
      simp only [List.cons_append, List.nil_append]
      simp only [utf8DecOne]
      have hm : c % 64 < 64 := Nat.mod_lt _ (by norm_num)
      have hd1 : 2 ≤ c / 64 := by omega
      have hd2 : c / 64 < 32 := by omega
      split_ifs with g1 g2 g3 g4 <;> try omega
      · simp only [Option.some.injEq, Prod.mk.injEq, and_true]
        omega
    · by_cases h3 : c < 0x10000
      · have henc : utf8EncChar c = [0xE0 + c / 4096, 0x80 + c / 64 % 64, 0x80 + c % 64] := by
          unfold utf8EncChar; simp [h1, h2, h3]
        rw [henc]
        simp only [List.cons_append, List.nil_append]
        simp only [utf8DecOne]
        have hm1 : c / 64 % 64 < 64 := Nat.mod_lt _ (by norm_num)
        have hm2 : c % 64 < 64 := Nat.mod_lt _ (by norm_num)
        have hd : c / 4096 < 16 := by omega
        split_ifs with g1 g2 g3 g4 <;> try omega
        · simp only [Option.some.injEq, Prod.mk.injEq, and_true]
          omega
      · have henc : utf8EncChar c =
            [0xF0 + c / 0x40000, 0x80 + c / 4096 % 64, 0x80 + c / 64 % 64, 0x80 + c % 64] := by
          unfold utf8EncChar; simp [h1, h2, h3]
        rw [henc]
        simp only [List.cons_append, List.nil_append]
        simp only [utf8DecOne]
        have hm1 : c / 4096 % 64 < 64 := Nat.mod_lt _ (by norm_num)
        have hm2 : c / 64 % 64 < 64 := Nat.mod_lt _ (by norm_num)
        have hm3 : c % 64 < 64 := Nat.mod_lt _ (by norm_num)
        have hd : c / 0x40000 < 5 := by omega
        split_ifs with g1 g2 g3 g4 g5 <;> try omega
        · simp only [Option.some.injEq, Prod.mk.injEq, and_true]
          omega

theorem utf8DecAux_cons (f : Nat) (b : Nat) (bs : List Nat) :
    utf8DecAux (f + 1) (b :: bs) =
      match utf8DecOne (b :: bs) with
      | none => none
      | some (c, r) => (utf8DecAux f r).map (fun t => c :: t) := rfl

theorem utf8DecAux_encode (s : List Nat) : ∀ fuel, s.length ≤ fuel →
    (∀ c ∈ s, IsScalar c) → utf8DecAux fuel (utf8Encode s) = some s := by
  induction s with
  | nil => intro fuel _ _; simp [utf8Encode, utf8DecAux]
  | cons c t ih =>
    intro fuel hlen hsc
    simp only [List.length_cons] at hlen
    obtain ⟨f, rfl⟩ : ∃ f, fuel = f + 1 := ⟨fuel - 1, by omega⟩
    have hlen2 : t.length ≤ f := by omega
    have hc : IsScalar c := hsc c (by simp)
    have hne : utf8Encode (c :: t) = utf8EncChar c ++ utf8Encode t := by
      simp [utf8Encode]
    rw [hne]
    rcases hE : utf8EncChar c ++ utf8Encode t with _ | ⟨e, es⟩
    · exfalso
      have h1 := utf8EncChar_length_pos c
      have h2 : (utf8EncChar c ++ utf8Encode t).length = 0 := by rw [hE]; simp
      simp only [List.length_append] at h2
      omega
    · rw [utf8DecAux_cons, ← hE, utf8DecOne_encChar c hc]
      simp only
      rw [ih f hlen2 (fun x hx => hsc x (by simp [hx]))]
      rfl

theorem utf8Encode_length_ge (s : List Nat) : s.length ≤ (utf8Encode s).length := by
  induction s with
  | nil => simp [utf8Encode]
  | cons c t ih =>
    have h1 := utf8EncChar_length_pos c
    simp only [utf8Encode, List.flatMap_cons, List.length_append, List.length_cons] at ih ⊢
    omega

theorem utf8Decode_encode (s : List Nat) (hsc : ∀ c ∈ s, IsScalar c) :
    utf8Decode (utf8Encode s) = some s :=
  utf8DecAux_encode s _ (utf8Encode_length_ge s) hsc

theorem utf8Encode_ascii (s : List Nat) (h : ∀ c ∈ s, c < 0x80) :
    utf8Encode s = s := by
  induction s with
  | nil => simp [utf8Encode]
  | cons c t ih =>
    have hc : c < 0x80 := h c (by simp)
    simp only [utf8Encode, List.flatMap_cons]
    rw [show utf8EncChar c = [c] by unfold utf8EncChar; simp [hc]]
    simp only [List.cons_append, List.nil_append]
    congr 1
    exact ih (fun x hx => h x (by simp [hx]))

theorem skipWs_cons_not (c : Nat) (r : List Nat) (h : wsCode c = false) :
    skipWs (c :: r) = c :: r := by
  unfold skipWs wsCode at *
  simp at h
  simp [h]

theorem skipWs_cons_sp (r : List Nat) : skipWs (32 :: r) = skipWs r := by
  rw [skipWs]; simp

theorem delim_not_float (rest : List Nat) (h : delimB rest = true) :
    floatFollows rest = false := by
  cases rest with
  | nil => rfl
  | cons c t => unfold delimB at h; unfold floatFollows; simp at h ⊢; omega

theorem delim_digitBoundary (rest : List Nat) (h : delimB rest = true) :
    digitBoundary rest := by
  cases rest with
  | nil => trivial
  | cons c t =>
    unfold delimB at h
    unfold digitBoundary isDigitCode
    simp at h ⊢
    omega

/-! digits lemmas -/
theorem natDigitsF_append (fuel : Nat) : ∀ n acc,
    natDigitsF fuel n acc = natDigitsF fuel n [] ++ acc := by
  induction fuel with
  | zero => intro n acc; simp [natDigitsF]
  | succ f ih =>
    intro n acc
    by_cases h : n < 10
    · simp [natDigitsF, h]
    · simp only [natDigitsF, h, if_false]
      rw [ih (n / 10) ((48 + n % 10) :: acc), ih (n / 10) [48 + n % 10]]
      simp

theorem natDigitsF_digits (fuel : Nat) : ∀ n acc,
    (∀ d ∈ acc, isDigitCode d = true) →
    ∀ d ∈ natDigitsF fuel n acc, isDigitCode d = true := by
  induction fuel with
  | zero =>
    intro n acc hacc d hd
    simp [natDigitsF] at hd
    rcases hd with h | h
    · subst h; unfold isDigitCode; simp; omega
    · exact hacc d h
  | succ f ih =>
    intro n acc hacc d hd
    by_cases h : n < 10
    · simp [natDigitsF, h] at hd
      rcases hd with h2 | h2
      · subst h2; unfold isDigitCode; simp; omega
      · exact hacc d h2
    · simp only [natDigitsF, h, if_false] at hd
      refine ih (n / 10) ((48 + n % 10) :: acc) ?_ d hd
      intro e he
      simp at he
      rcases he with h2 | h2
      · subst h2; unfold isDigitCode; simp; omega
      · exact hacc e h2

theorem parseDigitsAcc_consume (ds : List Nat) : ∀ a rest,
    (∀ d ∈ ds, isDigitCode d = true) →
    parseDigitsAcc a (ds ++ rest) = parseDigitsAcc (foldDigits a ds) rest := by
  induction ds with
  | nil => intro a rest _; simp [foldDigits]
  | cons d t ih =>
    intro a rest h
    have hd : isDigitCode d = true := h d (by simp)
    simp only [List.cons_append, parseDigitsAcc, hd, if_true, List.append_eq]
    rw [ih (a * 10 + (d - 48)) rest (fun e he => h e (by simp [he]))]
    rfl

theorem parseDigitsAcc_stop (a : Nat) (rest : List Nat) (h : digitBoundary rest) :
    parseDigitsAcc a rest = (a, rest) := by
  cases rest with
  | nil => rfl
  | cons c t =>
    unfold digitBoundary at h
    simp [parseDigitsAcc, h]

theorem foldDigits_natDigitsF (fuel : Nat) : ∀ n a, n ≤ fuel →
    foldDigits a (natDigitsF fuel n []) =
      a * 10 ^ (natDigitsF fuel n []).length + n := by
  induction fuel with
  | zero =>
    intro n a hn
    interval_cases n
    simp [natDigitsF, foldDigits]
  | succ f ih =>
    intro n a hn
    by_cases h : n < 10
    · simp [natDigitsF, h, foldDigits]
      try omega
    · simp only [natDigitsF, h, if_false]
      rw [natDigitsF_append]
      unfold foldDigits
      rw [List.foldl_append]
      have hrec : n / 10 ≤ f := by omega
      have := ih (n / 10) a hrec
      unfold foldDigits at this
      rw [this]
      simp [List.length_append, pow_succ]
      ring_nf
      try omega

theorem natDigits_head (n : Nat) (hn : 1 ≤ n) : ∀ fuel, n ≤ fuel →
    ∃ c ds, natDigitsF fuel n [] = c :: ds ∧ 49 ≤ c ∧ c ≤ 57 := by
  induction n using Nat.strong_induction_on with
  | _ n ih =>
    intro fuel hf
    obtain ⟨f, rfl⟩ : ∃ f, fuel = f + 1 := ⟨fuel - 1, by omega⟩
    by_cases h : n < 10
    · exact ⟨48 + n, [], by simp [natDigitsF, h], by omega, by omega⟩
    · have h1 : 1 ≤ n / 10 := by omega
      have h2 : n / 10 < n := by omega
      have h3 : n / 10 ≤ f := by omega
      obtain ⟨c, ds, heq, hc1, hc2⟩ := ih (n / 10) h2 h1 f h3
      refine ⟨c, ds ++ [48 + n % 10], ?_, hc1, hc2⟩
      simp only [natDigitsF, h, if_false]
      rw [natDigitsF_append, heq]
      simp

theorem parseNumAbs_natDigits (n : Nat) (rest : List Nat)
    (hb : digitBoundary rest) (hf : floatFollows rest = false) :
    parseNumAbs (natDigits n ++ rest) = some (n, rest) := by
  by_cases hn : n = 0
  · subst hn
    have : natDigits 0 = [48] := rfl
    rw [this]
    simp [parseNumAbs, hf]
  · obtain ⟨c, ds, heq, hc1, hc2⟩ := natDigits_head n (by omega) n le_rfl
    unfold natDigits
    rw [heq]
    have hds : ∀ d ∈ ds, isDigitCode d = true := by
      intro d hd
      exact natDigitsF_digits n n [] (by simp) d (by rw [heq]; simp [hd])
    have hfold : foldDigits (c - 48) ds = n := by
      have h0 := foldDigits_natDigitsF n n 0 le_rfl
      rw [heq] at h0
      simp only [Nat.zero_mul] at h0
      have h1 : foldDigits 0 (c :: ds) = foldDigits (0 * 10 + (c - 48)) ds := rfl
      rw [h1] at h0
      simpa using h0
    simp only [List.cons_append, parseNumAbs]
    have hc48 : ¬ (c = 48) := by omega
    simp only [hc48, if_false]
    have : 49 ≤ c ∧ c ≤ 57 := ⟨hc1, hc2⟩
    simp only [this, if_pos, and_self]
    rw [parseDigitsAcc_consume ds (c - 48) rest hds,
        parseDigitsAcc_stop _ rest hb, hfold]
    simp [hf]

theorem parseNumber_dumpInt (i : Int) (rest : List Nat)
    (hb : digitBoundary rest) (hf : floatFollows rest = false) :
    parseNumber (dumpInt i ++ rest) = some (i, rest) := by
  by_cases hi : i < 0
  · have hd45 : dumpInt i = 45 :: natDigits i.natAbs := by simp [dumpInt, hi]
    rw [hd45]
    simp only [List.cons_append, parseNumber]
    rw [parseNumAbs_natDigits i.natAbs rest hb hf]
    have habs : (i.natAbs : Int) = -i := by
      rw [Int.natCast_natAbs, abs_of_neg hi]
    simp [habs]
  · have : dumpInt i = natDigits i.natAbs := by simp [dumpInt, hi]
    rw [this]
    obtain ⟨c, ds, heq, hcd⟩ : ∃ c ds, natDigits i.natAbs = c :: ds ∧ 48 ≤ c ∧ c ≤ 57 := by
      by_cases hz : i.natAbs = 0
      · exact ⟨48, [], by rw [hz]; rfl, by omega, by omega⟩
      · obtain ⟨c, ds, heq, h1, h2⟩ := natDigits_head i.natAbs (by omega) i.natAbs le_rfl
        exact ⟨c, ds, heq, by omega, h2⟩
    rw [heq]
    simp only [List.cons_append]
    unfold parseNumber
    split
    · rename_i r heq2
      injection heq2 with h1 h2
      omega
    · rw [← List.cons_append, ← heq, parseNumAbs_natDigits i.natAbs rest hb hf]
      have habs : (i.natAbs : Int) = i := Int.natAbs_of_nonneg (by omega)
      simp [habs]

theorem hexVal_hexDigit (x : Nat) (h : x < 16) : hexVal (hexDigit x) = some x := by
  unfold hexDigit hexVal
  by_cases h10 : x < 10
  · simp only [h10, if_true]
    have h1 : 48 ≤ 48 + x ∧ 48 + x ≤ 57 := by omega
    simp only [h1, if_pos, and_self]
    congr 1
    omega
  · simp only [h10, if_false]
    have h1 : ¬ (48 ≤ 87 + x ∧ 87 + x ≤ 57) := by omega
    have h2 : 97 ≤ 87 + x ∧ 87 + x ≤ 102 := by omega
    simp only [h1, if_false, h2, if_pos, and_self]
    congr 1
    omega

theorem parseUEsc_hexDigits (c : Nat) (hc : c < 0x10000) (rest : List Nat) :
    parseUEsc (hexDigit (c / 4096 % 16) :: hexDigit (c / 256 % 16) ::
      hexDigit (c / 16 % 16) :: hexDigit (c % 16) :: rest) = some (c, rest) := by
  rw [parseUEsc]
  rw [hexVal_hexDigit _ (by omega), hexVal_hexDigit _ (by omega),
      hexVal_hexDigit _ (by omega), hexVal_hexDigit _ (by omega)]
  simp only [Option.some.injEq, Prod.mk.injEq, and_true]
  omega

theorem parseEsc_uEscTail (c : Nat) (hc : c < 0x10000)
    (hsur : ¬ (0xD800 ≤ c ∧ c ≤ 0xDFFF)) (rest : List Nat) :
    parseEsc (117 :: hexDigit (c / 4096 % 16) :: hexDigit (c / 256 % 16) ::
      hexDigit (c / 16 % 16) :: hexDigit (c % 16) :: rest) = some (c, rest) := by
  rw [parseEsc]
  repeat rw [if_neg (by omega)]
  rw [if_pos rfl]
  rw [parseUEsc_hexDigits c hc rest]
  have h2 : ¬ (0xD800 ≤ c ∧ c ≤ 0xDBFF) := by omega
  have h3 : ¬ (0xDC00 ≤ c ∧ c ≤ 0xDFFF) := by omega
  simp only [h2, if_false, h3]

theorem parseStrChar_uEsc (c : Nat) (hc : c < 0x10000)
    (hsur : ¬ (0xD800 ≤ c ∧ c ≤ 0xDFFF)) (rest : List Nat) :
    parseStrChar (uEsc c ++ rest) = some (some c, rest) := by
  unfold uEsc
  simp only [List.cons_append, List.nil_append]
  rw [parseStrChar]
  simp only [show ¬ ((92:Nat) = 34) by omega, if_false, if_pos rfl]
  rw [parseEsc_uEscTail c hc hsur rest]
  rfl

theorem parseEsc_surrogatePair (c : Nat) (hlo : 0x10000 ≤ c) (hhi : c < 0x110000)
    (rest : List Nat) :
    parseEsc (117 :: hexDigit ((0xD800 + (c - 0x10000) / 1024) / 4096 % 16) ::
      hexDigit ((0xD800 + (c - 0x10000) / 1024) / 256 % 16) ::
      hexDigit ((0xD800 + (c - 0x10000) / 1024) / 16 % 16) ::
      hexDigit ((0xD800 + (c - 0x10000) / 1024) % 16) ::
      92 :: 117 :: hexDigit ((0xDC00 + (c - 0x10000) % 1024) / 4096 % 16) ::
      hexDigit ((0xDC00 + (c - 0x10000) % 1024) / 256 % 16) ::
      hexDigit ((0xDC00 + (c - 0x10000) % 1024) / 16 % 16) ::
      hexDigit ((0xDC00 + (c - 0x10000) % 1024) % 16) :: rest) = some (c, rest) := by
  have hdiv : (c - 0x10000) / 1024 ≤ 1023 := by omega
  have hmod : (c - 0x10000) % 1024 < 1024 := by omega
  rw [parseEsc]
  repeat rw [if_neg (by omega)]
  rw [if_pos rfl]
  rw [parseUEsc_hexDigits _ (by omega)]
  have hhib : 0xD800 ≤ 0xD800 + (c - 0x10000) / 1024 ∧
      0xD800 + (c - 0x10000) / 1024 ≤ 0xDBFF := by omega
  dsimp only
  rw [if_pos hhib]
  rw [if_pos (show (92:Nat) = 92 ∧ (117:Nat) = 117 from ⟨rfl, rfl⟩)]
  rw [parseUEsc_hexDigits _ (by omega)]
  dsimp only
  have hlob : 0xDC00 ≤ 0xDC00 + (c - 0x10000) % 1024 ∧
      0xDC00 + (c - 0x10000) % 1024 ≤ 0xDFFF := by omega
  rw [if_pos hlob]
  simp only [Option.some.injEq, Prod.mk.injEq, and_true]
  omega

theorem parseStrChar_astral (c : Nat) (hlo : 0x10000 ≤ c) (hhi : c < 0x110000)
    (rest : List Nat) :
    parseStrChar ((uEsc (0xD800 + (c - 0x10000) / 1024) ++
      uEsc (0xDC00 + (c - 0x10000) % 1024)) ++ rest) = some (some c, rest) := by
  unfold uEsc
  simp only [List.cons_append, List.nil_append, List.append_assoc]
  rw [parseStrChar]
  simp only [show ¬ ((92:Nat) = 34) by omega, if_false, if_pos rfl, if_true]
  rw [parseEsc_surrogatePair c hlo hhi rest]
  rfl

theorem parseStrChar_escChar (c : Nat) (h : IsScalar c) (rest : List Nat) :
    parseStrChar (escChar c ++ rest) = some (some c, rest) := by
  obtain ⟨hlt, hsur⟩ := h
  unfold escChar
  by_cases h34 : c = 34
  · subst h34; norm_num
    rw [parseStrChar.eq_def]; simp [parseEsc]
  simp only [h34, if_false]
  by_cases h92 : c = 92
  · subst h92; norm_num
    rw [parseStrChar.eq_def]; simp [parseEsc]
  simp only [h92, if_false]
  by_cases h10 : c = 10
  · subst h10; norm_num
    rw [parseStrChar.eq_def]; simp [parseEsc]
  simp only [h10, if_false]
  by_cases h9 : c = 9
  · subst h9; norm_num
    rw [parseStrChar.eq_def]; simp [parseEsc]
  simp only [h9, if_false]
  by_cases h13 : c = 13
  · subst h13; norm_num
    rw [parseStrChar.eq_def]; simp [parseEsc]
  simp only [h13, if_false]
  by_cases h8 : c = 8
  · subst h8; norm_num
    rw [parseStrChar.eq_def]; simp [parseEsc]
  simp only [h8, if_false]
  by_cases h12 : c = 12
  · subst h12; norm_num
    rw [parseStrChar.eq_def]; simp [parseEsc]
  simp only [h12, if_false]
  by_cases hctl : c < 32
  · simp only [hctl, if_true]
    exact parseStrChar_uEsc c (by omega) (by omega) rest
  simp only [hctl, if_false]
  by_cases hascii : c < 0x7F
  · simp only [hascii, if_true]
    simp only [List.cons_append, List.nil_append]
    rw [parseStrChar.eq_def]
    simp only [h34, if_false, h92, hctl]
  simp only [hascii, if_false]
  by_cases hbmp : c < 0x10000
  · simp only [hbmp, if_true]
    exact parseStrChar_uEsc c hbmp hsur rest
  · simp only [hbmp, if_false]
    exact parseStrChar_astral c (by omega) hlt rest

theorem parseStrAux_dumpBody (s : List Nat) : ∀ fuel rest,
    s.length + 1 ≤ fuel → (∀ c ∈ s, IsScalar c) →
    parseStrAux fuel (s.flatMap escChar ++ (34 :: rest)) = some (s, rest) := by
  induction s with
  | nil =>
    intro fuel rest hf _
    obtain ⟨f, rfl⟩ : ∃ f, fuel = f + 1 := ⟨fuel - 1, by omega⟩
    simp only [List.flatMap_nil, List.nil_append]
    rw [parseStrAux]
    rfl
  | cons c t ih =>
    intro fuel rest hf hsc
    obtain ⟨f, rfl⟩ : ∃ f, fuel = f + 1 := ⟨fuel - 1, by omega⟩
    simp only [List.flatMap_cons, List.append_assoc]
    rw [parseStrAux, parseStrChar_escChar c (hsc c (by simp))]
    simp only
    rw [ih f rest (by simp at hf; omega) (fun x hx => hsc x (by simp [hx]))]
    rfl

set_option maxHeartbeats 2000000 in
theorem escChar_length_pos (c : Nat) : 0 < (escChar c).length := by
  unfold escChar
  split_ifs <;> simp [uEsc]

theorem parseStringBody_dump (s : List Nat) (rest : List Nat)
    (hsc : ∀ c ∈ s, IsScalar c) :
    parseStringBody (s.flatMap escChar ++ (34 :: rest)) = some (s, rest) := by
  unfold parseStringBody
  apply parseStrAux_dumpBody s _ rest _ hsc
  have : s.length ≤ (s.flatMap escChar).length := by
    induction s with
    | nil => simp
    | cons c t ih =>
      have h1 := escChar_length_pos c
      simp only [List.flatMap_cons, List.length_append, List.length_cons] at ih ⊢
      have ih2 : t.length ≤ (t.flatMap escChar).length := by
        apply ih
        intro x hx
        exact hsc x (by simp [hx])
      omega
  simp only [List.length_append, List.length_cons]
  omega

theorem addMember_notmem (ms : List (List Nat × JsonValue)) : ∀ k v,
    (∀ kv ∈ ms, kv.1 ≠ k) → addMember ms k v = ms ++ [(k, v)] := by
  induction ms with
  | nil => intro k v _; rfl
  | cons kv t ih =>
    intro k v h
    obtain ⟨k2, v2⟩ := kv
    have hne : k2 ≠ k := h (k2, v2) (by simp)
    simp only [addMember, hne, if_false, List.cons_append]
    rw [ih k v (fun x hx => h x (by simp [hx]))]

theorem wfM_keysDistinct (ms : List (List Nat × JsonValue)) (h : wfM ms = true) :
    keysDistinct ms = true := by
  induction ms with
  | nil => rfl
  | cons kv t ih =>
    obtain ⟨k, v⟩ := kv
    rw [wfM] at h
    simp only [Bool.and_eq_true] at h
    rw [keysDistinct]
    simp only [Bool.and_eq_true]
    exact ⟨h.1.2, ih h.2⟩

theorem dedupMembers_distinct (ms : List (List Nat × JsonValue))
    (h : keysDistinct ms = true) : dedupMembers ms = ms := by
  suffices haux : ∀ acc, (∀ kv ∈ ms, ∀ ac ∈ acc, kv.1 ≠ ac.1) →
      ms.foldl (fun a kv => addMember a kv.1 kv.2) acc = acc ++ ms by
    have := haux [] (by simp)
    simpa [dedupMembers] using this
  induction ms with
  | nil => intro acc _; simp
  | cons kv t ih =>
    intro acc hacc
    obtain ⟨k, v⟩ := kv
    rw [keysDistinct] at h
    simp only [Bool.and_eq_true] at h
    have hstep : addMember acc k v = acc ++ [(k, v)] := by
      apply addMember_notmem
      intro ac hac
      exact fun he => hacc (k, v) (by simp) ac hac he.symm
    simp only [List.foldl_cons, hstep]
    rw [ih h.2 (acc ++ [(k, v)]) ?_]
    · simp
    · intro kv2 hkv2 ac hac
      rcases List.mem_append.mp hac with hl | hr
      · exact hacc kv2 (by simp [hkv2]) ac hl
      · have : ac = (k, v) := by simpa using hr
        subst this
        have := List.all_eq_true.mp h.1 kv2 hkv2
        simpa using this

theorem natDigitsF_ne_nil (fuel : Nat) : ∀ n acc, natDigitsF fuel n acc ≠ [] := by
  induction fuel with
  | zero => intro n acc; simp [natDigitsF]
  | succ f ih =>
    intro n acc
    by_cases h : n < 10
    · simp [natDigitsF, h]
    · simp only [natDigitsF, h, if_false]
      exact ih (n / 10) _

theorem dumpInt_head (i : Int) :
    ∃ c t, dumpInt i = c :: t ∧ (c = 45 ∨ isDigitCode c = true) := by
  unfold dumpInt
  by_cases h : i < 0
  · exact ⟨45, natDigits i.natAbs, by simp [h], Or.inl rfl⟩
  · simp only [h, if_false]
    rcases he : natDigits i.natAbs with _ | ⟨c, t⟩
    · exact absurd he (natDigitsF_ne_nil _ _ _)
    · refine ⟨c, t, rfl, Or.inr ?_⟩
      have := natDigitsF_digits i.natAbs i.natAbs [] (by simp) c (by rw [← natDigits, he]; simp)
      exact this

theorem dumpsV_head (v : JsonValue) (ds : List Nat) (h : dumpsV v = some ds) :
    ∃ c t, ds = c :: t ∧ dumpHeadOK c = true := by
  cases v with
  | null =>
    rw [dumpsV] at h
    exact ⟨110, _, by simpa using h.symm, by rfl⟩
  | bool b =>
    cases b with
    | true => rw [dumpsV] at h; exact ⟨116, _, by simpa using h.symm, by rfl⟩
    | false => rw [dumpsV] at h; exact ⟨102, _, by simpa using h.symm, by rfl⟩
  | num i =>
    rw [dumpsV] at h
    obtain ⟨c, t, he, hc⟩ := dumpInt_head i
    refine ⟨c, t, ?_, ?_⟩
    · simp only [Option.some.injEq] at h
      rw [← h, he]
    · unfold dumpHeadOK
      rcases hc with h1 | h1 <;> simp [h1]
  | str s =>
    rw [dumpsV] at h
    simp only [Option.some.injEq] at h
    exact ⟨34, _, by rw [← h]; rfl, by rfl⟩
  | arr es =>
    rw [dumpsV] at h
    cases he : dumpsL es with
    | none => rw [he] at h; exact absurd h (by simp)
    | some x =>
      rw [he] at h
      simp only [Option.map_some', Option.some.injEq] at h
      exact ⟨91, _, h.symm, by rfl⟩
  | obj ms =>
    rw [dumpsV] at h
    cases he : dumpsM ms with
    | none => rw [he] at h; exact absurd h (by simp)
    | some x =>
      rw [he] at h
      simp only [Option.map_some', Option.some.injEq] at h
      exact ⟨123, _, h.symm, by rfl⟩
  | blob b => rw [dumpsV] at h; exact absurd h (by simp)
  | pyobj tag => rw [dumpsV] at h; exact absurd h (by simp)

theorem dumpHeadOK_props (c : Nat) (h : dumpHeadOK c = true) :
    wsCode c = false ∧ c ≠ 93 ∧ c ≠ 125 ∧ c ≠ 44 ∧ c ≠ 58 := by
  unfold dumpHeadOK isDigitCode at h
  unfold wsCode
  simp only [Bool.or_eq_true, decide_eq_true_eq, Bool.and_eq_true] at h
  simp only [Bool.or_eq_false_iff, decide_eq_false_iff_not]
  omega

theorem skipWs_dumpHead (c : Nat) (t : List Nat) (h : dumpHeadOK c = true) :
    skipWs (c :: t) = c :: t := by
  apply skipWs_cons_not
  exact (dumpHeadOK_props c h).1

theorem parseValue_null (f : Nat) (rest : List Nat) :
    parseValue (f + 1) ([110, 117, 108, 108] ++ rest) = some (.null, rest) := by
  rw [parseValue.eq_def]
  norm_num [matchLit]

theorem parseValue_true (f : Nat) (rest : List Nat) :
    parseValue (f + 1) ([116, 114, 117, 101] ++ rest) = some (.bool true, rest) := by
  rw [parseValue.eq_def]
  norm_num [matchLit]

theorem parseValue_false (f : Nat) (rest : List Nat) :
    parseValue (f + 1) ([102, 97, 108, 115, 101] ++ rest) = some (.bool false, rest) := by
  rw [parseValue.eq_def]
  norm_num [matchLit]

theorem parseValue_num (f : Nat) (i : Int) (rest : List Nat) (hd : delimB rest = true) :
    parseValue (f + 1) (dumpInt i ++ rest) = some (.num i, rest) := by
  obtain ⟨c, t, he, hc⟩ := dumpInt_head i
  have hrange : c = 45 ∨ (48 ≤ c ∧ c ≤ 57) := by
    rcases hc with h1 | h1
    · exact Or.inl h1
    · unfold isDigitCode at h1; simp at h1; omega
  rw [he]
  simp only [List.cons_append]
  rw [parseValue.eq_def]
  dsimp only
  repeat rw [if_neg (by omega)]
  rw [if_pos (show c = 45 ∨ isDigitCode c = true by
        rcases hrange with h1 | h1
        · exact Or.inl h1
        · exact Or.inr (by unfold isDigitCode; simp; omega))]
  rw [← List.cons_append, ← he,
      parseNumber_dumpInt i rest (delim_digitBoundary _ hd) (delim_not_float _ hd)]
  rfl

theorem parseValue_str (f : Nat) (s : List Nat) (rest : List Nat)
    (hsc : ∀ c ∈ s, IsScalar c) :
    parseValue (f + 1) (dumpStr s ++ rest) = some (.str s, rest) := by
  unfold dumpStr
  simp only [List.cons_append, List.append_assoc, List.cons_append, List.nil_append]
  rw [parseValue.eq_def]
  dsimp only
  rw [if_neg (by omega), if_neg (by omega), if_pos rfl]
  rw [parseStringBody_dump s rest hsc]
  rfl

theorem dumpsL_head (es : List JsonValue) (hne : es ≠ []) :
    ∀ x, dumpsL es = some x → ∃ c X, x = c :: X ∧ dumpHeadOK c = true := by
  cases es with
  | nil => exact absurd rfl hne
  | cons e t =>
    intro x h
    cases t with
    | nil =>
      rw [dumpsL] at h
      exact dumpsV_head e x h
    | cons u t2 =>
      rw [dumpsL] at h
      case x_1 => simp
      cases he : dumpsV e with
      | none => rw [he] at h; exact absurd h (by simp)
      | some dv =>
        rw [he] at h
        cases ht : dumpsL (u :: t2) with
        | none => rw [ht] at h; exact absurd h (by simp)
        | some dt =>
          rw [ht] at h
          simp at h
          obtain ⟨c, X, hdv, hOK⟩ := dumpsV_head e dv he
          exact ⟨c, X ++ 44 :: 32 :: dt, by rw [← h, hdv]; simp, hOK⟩

theorem dumpsM_head (ms : List (List Nat × JsonValue)) (hne : ms ≠ []) :
    ∀ x, dumpsM ms = some x → ∃ X, x = 34 :: X := by
  cases ms with
  | nil => exact absurd rfl hne
  | cons kv t =>
    intro x h
    obtain ⟨k, v⟩ := kv
    cases t with
    | nil =>
      rw [dumpsM] at h
      cases he : dumpsV v with
      | none => rw [he] at h; exact absurd h (by simp)
      | some dv =>
        rw [he] at h
        simp only [Option.map_some', Option.some.injEq] at h
        exact ⟨_, by rw [← h]; rfl⟩
    | cons kv2 t2 =>
      rw [dumpsM] at h
      case x_1 => simp
      cases he : dumpsV v with
      | none => rw [he] at h; exact absurd h (by simp)
      | some dv =>
        rw [he] at h
        cases ht : dumpsM (kv2 :: t2) with
        | none => rw [ht] at h; exact absurd h (by simp)
        | some dt =>
          rw [ht] at h
          simp at h
          exact ⟨_, by rw [← h]; rfl⟩

theorem parse_dumps_all : ∀ fuel : Nat,
    (∀ v ds rest, dumpsV v = some ds → wfJ v = true → ds.length < fuel →
       delimB rest = true → parseValue fuel (ds ++ rest) = some (v, rest)) ∧
    (∀ es ds rest, dumpsL es = some ds → es ≠ [] → wfL es = true → ds.length + 1 < fuel →
       parseElems fuel (ds ++ 93 :: rest) = some (es, rest)) ∧
    (∀ ms ds rest, dumpsM ms = some ds → ms ≠ [] → wfM ms = true → ds.length + 1 < fuel →
       parseMembers fuel (ds ++ 125 :: rest) = some (ms, rest)) := by
  intro fuel
  induction fuel using Nat.strong_induction_on with
  | _ fuel ih =>
  refine ⟨?_, ?_, ?_⟩
  · -- values
    intro v ds rest hd hwf hsz hdelim
    obtain ⟨f, rfl⟩ : ∃ f, fuel = f + 1 := ⟨fuel - 1, by omega⟩
    cases v with
    | null =>
      rw [dumpsV] at hd
      simp only [Option.some.injEq] at hd
      rw [← hd]
      exact parseValue_null f rest
    | bool b =>
      cases b with
      | true =>
        rw [dumpsV] at hd
        simp only [Option.some.injEq] at hd
        rw [← hd]
        exact parseValue_true f rest
      | false =>
        rw [dumpsV] at hd
        simp only [Option.some.injEq] at hd
        rw [← hd]
        exact parseValue_false f rest
    | num i =>
      rw [dumpsV] at hd
      simp only [Option.some.injEq] at hd
      rw [← hd]
      exact parseValue_num f i rest hdelim
    | str s =>
      rw [dumpsV] at hd
      simp only [Option.some.injEq] at hd
      rw [← hd]
      apply parseValue_str f s rest
      rw [wfJ] at hwf
      intro c hc
      have := List.all_eq_true.mp hwf c hc
      simpa using this
    | blob b => rw [dumpsV] at hd; exact absurd hd (by simp)
    | pyobj t => rw [dumpsV] at hd; exact absurd hd (by simp)
    | arr es =>
      rw [dumpsV] at hd
      cases he : dumpsL es with
      | none => rw [he] at hd; exact absurd hd (by simp)
      | some x =>
        rw [he] at hd
        simp only [Option.map_some', Option.some.injEq] at hd
        rw [← hd]
        rw [wfJ] at hwf
        have hszL : x.length + 1 < f := by
          rw [← hd] at hsz
          simp only [List.length_cons, List.length_append] at hsz
          simp at hsz
          omega
        cases es with
        | nil =>
          rw [dumpsL] at he
          simp only [Option.some.injEq] at he
          rw [← he]
          simp only [List.cons_append, List.nil_append]
          rw [parseValue.eq_def]
          dsimp only
          rw [if_neg (by omega), if_pos rfl]
          rw [skipWs_cons_not 93 rest (by rfl)]
          dsimp only
          rw [if_pos rfl]
        | cons e t =>
          obtain ⟨c, X, hx, hOK⟩ := dumpsL_head (e :: t) (by simp) x he
          simp only [List.cons_append, List.append_assoc, List.singleton_append,
            List.nil_append]
          rw [hx]
          rw [parseValue.eq_def]
          dsimp only
          rw [if_neg (by omega), if_pos rfl]
          simp only [List.cons_append]
          rw [skipWs_cons_not c _ (dumpHeadOK_props c hOK).1]
          dsimp only
          rw [if_neg (dumpHeadOK_props c hOK).2.1]
          have hP2 := (ih f (by omega)).2.1
          have := hP2 (e :: t) x rest he (by simp) hwf hszL
          rw [hx] at this
          simp only [List.cons_append] at this
          rw [this]
          rfl
    | obj ms =>
      rw [dumpsV] at hd
      cases he : dumpsM ms with
      | none => rw [he] at hd; exact absurd hd (by simp)
      | some x =>
        rw [he] at hd
        simp only [Option.map_some', Option.some.injEq] at hd
        rw [← hd]
        rw [wfJ] at hwf
        have hszM : x.length + 1 < f := by
          rw [← hd] at hsz
          simp only [List.length_cons, List.length_append] at hsz
          simp at hsz
          omega
        cases ms with
        | nil =>
          rw [dumpsM] at he
          simp only [Option.some.injEq] at he
          rw [← he]
          simp only [List.cons_append, List.nil_append]
          rw [parseValue.eq_def]
          dsimp only
          rw [if_pos rfl]
          rw [skipWs_cons_not 125 rest (by rfl)]
          dsimp only
          rw [if_pos rfl]
        | cons kv t =>
          obtain ⟨X, hx⟩ := dumpsM_head (kv :: t) (by simp) x he
          simp only [List.cons_append, List.append_assoc, List.singleton_append,
            List.nil_append]
          rw [hx]
          rw [parseValue.eq_def]
          dsimp only
          rw [if_pos rfl]
          simp only [List.cons_append]
          rw [skipWs_cons_not 34 _ (by rfl)]
          dsimp only
          rw [if_neg (by omega)]
          have hP3 := (ih f (by omega)).2.2
          have := hP3 (kv :: t) x rest he (by simp) hwf hszM
          rw [hx] at this
          simp only [List.cons_append] at this
          rw [this]
          simp only [Option.map_some']
          rw [dedupMembers_distinct (kv :: t) (wfM_keysDistinct _ hwf)]
  · -- array elements
    intro es ds rest hd hne hwf hsz
    obtain ⟨f, rfl⟩ : ∃ f, fuel = f + 1 := ⟨fuel - 1, by omega⟩
    cases es with
    | nil => exact absurd rfl hne
    | cons e t =>
      rw [wfL] at hwf
      simp only [Bool.and_eq_true] at hwf
      cases t with
      | nil =>
        rw [dumpsL] at hd
        have hlen : ds.length < f := by omega
        rw [parseElems.eq_def]
        dsimp only
        have hP1 := (ih f (by omega)).1
        rw [hP1 e ds (93 :: rest) hd hwf.1 hlen (by rfl)]
        dsimp only
        rw [skipWs_cons_not 93 rest (by rfl)]
        dsimp only
        rw [if_pos rfl]
      | cons u t2 =>
        rw [dumpsL] at hd
        case x_1 => simp
        cases he : dumpsV e with
        | none => rw [he] at hd; exact absurd hd (by simp)
        | some dv =>
          rw [he] at hd
          cases ht : dumpsL (u :: t2) with
          | none => rw [ht] at hd; exact absurd hd (by simp)
          | some dt =>
            rw [ht] at hd
            simp at hd
            rw [← hd]
            have hlens : dv.length < f ∧ dt.length + 1 < f := by
              rw [← hd] at hsz
              simp only [List.length_append, List.length_cons] at hsz
              omega
            simp only [List.append_assoc, List.cons_append]
            rw [parseElems.eq_def]
            dsimp only
            have hP1 := (ih f (by omega)).1
            rw [hP1 e dv (44 :: 32 :: (dt ++ 93 :: rest)) he hwf.1 hlens.1 (by rfl)]
            dsimp only
            rw [skipWs_cons_not 44 _ (by rfl)]
            dsimp only
            rw [if_neg (by omega), if_pos rfl]
            rw [skipWs_cons_sp]
            obtain ⟨c, X, hdt, hOK⟩ := dumpsL_head (u :: t2) (by simp) dt ht
            rw [hdt]
            simp only [List.cons_append]
            rw [skipWs_cons_not c _ (dumpHeadOK_props c hOK).1]
            have hP2 := (ih f (by omega)).2.1
            have := hP2 (u :: t2) dt rest ht (by simp) hwf.2 hlens.2
            rw [hdt] at this
            simp only [List.cons_append] at this
            rw [this]
            rfl
  · -- object members
    intro ms ds rest hd hne hwf hsz
    obtain ⟨f, rfl⟩ : ∃ f, fuel = f + 1 := ⟨fuel - 1, by omega⟩
    cases ms with
    | nil => exact absurd rfl hne
    | cons kv t =>
      obtain ⟨k, v⟩ := kv
      rw [wfM] at hwf
      simp only [Bool.and_eq_true] at hwf
      have hksc : ∀ c ∈ k, IsScalar c := by
        intro c hc
        have := List.all_eq_true.mp hwf.1.1.1 c hc
        simpa using this
      cases t with
      | nil =>
        rw [dumpsM] at hd
        cases he : dumpsV v with
        | none => rw [he] at hd; exact absurd hd (by simp)
        | some dv =>
          rw [he] at hd
          simp only [Option.map_some', Option.some.injEq] at hd
          rw [← hd]
          have hlv : dv.length < f := by
            rw [← hd] at hsz
            simp only [List.length_append, List.length_cons] at hsz
            omega
          unfold dumpStr
          simp only [List.cons_append, List.append_assoc, List.singleton_append,
            List.nil_append]
          rw [parseMembers.eq_def]
          dsimp only
          rw [if_pos rfl]
          rw [parseStringBody_dump k _ hksc]
          dsimp only
          rw [skipWs_cons_not 58 _ (by rfl)]
          dsimp only
          rw [if_pos rfl]
          rw [skipWs_cons_sp]
          obtain ⟨c, X, hdv, hOK⟩ := dumpsV_head v dv he
          rw [hdv]
          simp only [List.cons_append]
          rw [skipWs_cons_not c _ (dumpHeadOK_props c hOK).1]
          have hP1 := (ih f (by omega)).1
          have := hP1 v dv (125 :: rest) he hwf.1.1.2 hlv (by rfl)
          rw [hdv] at this
          simp only [List.cons_append] at this
          rw [this]
          dsimp only
          rw [skipWs_cons_not 125 rest (by rfl)]
          dsimp only
          rw [if_pos rfl]
      | cons kv2 t2 =>
        rw [dumpsM] at hd
        case x_1 => simp
        cases he : dumpsV v with
        | none => rw [he] at hd; exact absurd hd (by simp)
        | some dv =>
          rw [he] at hd
          cases ht : dumpsM (kv2 :: t2) with
          | none => rw [ht] at hd; exact absurd hd (by simp)
          | some dt =>
            rw [ht] at hd
            simp at hd
            rw [← hd]
            have hlens : dv.length < f ∧ dt.length + 1 < f := by
              rw [← hd] at hsz
              simp only [List.length_append, List.length_cons] at hsz
              omega
            unfold dumpStr
            simp only [List.cons_append, List.append_assoc, List.singleton_append,
              List.nil_append]
            rw [parseMembers.eq_def]
            dsimp only
            rw [if_pos rfl]
            rw [parseStringBody_dump k _ hksc]
            dsimp only
            rw [skipWs_cons_not 58 _ (by rfl)]
            dsimp only
            rw [if_pos rfl]
            rw [skipWs_cons_sp]
            obtain ⟨c, X, hdv, hOK⟩ := dumpsV_head v dv he
            rw [hdv]
            simp only [List.cons_append]
            rw [skipWs_cons_not c _ (dumpHeadOK_props c hOK).1]
            have hP1 := (ih f (by omega)).1
            have hv := hP1 v dv (44 :: 32 :: (dt ++ 125 :: rest)) he hwf.1.1.2 hlens.1 (by rfl)
            rw [hdv] at hv
            simp only [List.cons_append] at hv
            rw [hv]
            dsimp only
            rw [skipWs_cons_not 44 _ (by rfl)]
            dsimp only
            rw [if_neg (by omega), if_pos rfl]
            rw [skipWs_cons_sp]
            obtain ⟨X2, hdt⟩ := dumpsM_head (kv2 :: t2) (by simp) dt ht
            rw [hdt]
            simp only [List.cons_append]
            rw [skipWs_cons_not 34 _ (by rfl)]
            have hP3 := (ih f (by omega)).2.2
            have hm := hP3 (kv2 :: t2) dt rest ht (by simp) hwf.2 hlens.2
            rw [hdt] at hm
            simp only [List.cons_append] at hm
            rw [hm]
            rfl

theorem jsonLoads_dumps (v : JsonValue) (ds : List Nat)
    (hd : dumpsV v = some ds) (hwf : wfJ v = true) : jsonLoads ds = some v := by
  unfold jsonLoads
  obtain ⟨c, t, hds, hOK⟩ := dumpsV_head v ds hd
  subst hds
  rw [skipWs_cons_not c t (dumpHeadOK_props c hOK).1]
  have hP1 := (parse_dumps_all ((c :: t).length + 1)).1
  have hres := hP1 v (c :: t) [] hd hwf (by omega) (by rfl)
  rw [List.append_nil] at hres
  rw [hres]
  rfl

theorem hexDigit_range (x : Nat) (h : x < 16) : 48 ≤ hexDigit x ∧ hexDigit x ≤ 102 := by
  unfold hexDigit
  split_ifs <;> omega

theorem uEsc_range (c : Nat) : ∀ ch ∈ uEsc c, 32 ≤ ch ∧ ch ≤ 126 := by
  intro ch hch
  unfold uEsc at hch
  simp only [List.mem_cons, List.not_mem_nil, or_false] at hch
  have h1 := hexDigit_range (c / 4096 % 16) (Nat.mod_lt _ (by norm_num))
  have h2 := hexDigit_range (c / 256 % 16) (Nat.mod_lt _ (by norm_num))
  have h3 := hexDigit_range (c / 16 % 16) (Nat.mod_lt _ (by norm_num))
  have h4 := hexDigit_range (c % 16) (Nat.mod_lt _ (by norm_num))
  rcases hch with h | h | h | h | h | h <;> subst h <;> omega

theorem escChar_range (c : Nat) : ∀ ch ∈ escChar c, 32 ≤ ch ∧ ch ≤ 126 := by
  intro ch hch
  unfold escChar at hch
  split_ifs at hch with h1 h2 h3 h4 h5 h6 h7 h8 h9 h10
  · simp at hch; omega
  · simp at hch; omega
  · simp at hch; omega
  · simp at hch; omega
  · simp at hch; omega
  · simp at hch; omega
  · simp at hch; omega
  · exact uEsc_range c ch hch
  · simp at hch; omega
  · exact uEsc_range c ch hch
  · rcases List.mem_append.mp hch with h | h
    · exact uEsc_range _ ch h
    · exact uEsc_range _ ch h

theorem dumpStr_range (s : List Nat) : ∀ ch ∈ dumpStr s, 32 ≤ ch ∧ ch ≤ 126 := by
  intro ch hch
  unfold dumpStr at hch
  simp only [List.mem_cons, List.mem_append, List.mem_flatMap] at hch
  rcases hch with h | ⟨⟨x, _, hx⟩ | h⟩
  · omega
  · exact escChar_range x ch hx
  · simp at h; omega

theorem dumpInt_range (i : Int) : ∀ ch ∈ dumpInt i, 32 ≤ ch ∧ ch ≤ 126 := by
  intro ch hch
  unfold dumpInt at hch
  have hdig : ∀ d ∈ natDigits i.natAbs, isDigitCode d = true :=
    fun d hd => natDigitsF_digits _ _ [] (by simp) d hd
  split_ifs at hch with h
  · simp only [List.mem_cons] at hch
    rcases hch with h2 | h2
    · omega
    · have := hdig ch h2; unfold isDigitCode at this; simp at this; omega
  · have := hdig ch hch; unfold isDigitCode at this; simp at this; omega

theorem dumps_range_all : ∀ fuel : Nat,
    (∀ v ds, dumpsV v = some ds → ds.length < fuel → ∀ ch ∈ ds, 32 ≤ ch ∧ ch ≤ 126) ∧
    (∀ es ds, dumpsL es = some ds → ds.length + 1 < fuel → ∀ ch ∈ ds, 32 ≤ ch ∧ ch ≤ 126) ∧
    (∀ ms ds, dumpsM ms = some ds → ds.length + 1 < fuel → ∀ ch ∈ ds, 32 ≤ ch ∧ ch ≤ 126) := by
  intro fuel
  induction fuel using Nat.strong_induction_on with
  | _ fuel ih =>
  refine ⟨?_, ?_, ?_⟩
  · intro v ds hd hlen ch hch
    obtain ⟨f, rfl⟩ : ∃ f, fuel = f + 1 := ⟨fuel - 1, by omega⟩
    cases v with
    | null =>
      rw [dumpsV] at hd
      simp only [Option.some.injEq] at hd
      rw [← hd] at hch
      simp at hch
      omega
    | bool b =>
      cases b <;> rw [dumpsV] at hd <;> simp only [Option.some.injEq] at hd <;>
        rw [← hd] at hch <;> simp at hch <;> omega
    | num i =>
      rw [dumpsV] at hd
      simp only [Option.some.injEq] at hd
      rw [← hd] at hch
      exact dumpInt_range i ch hch
    | str s =>
      rw [dumpsV] at hd
      simp only [Option.some.injEq] at hd
      rw [← hd] at hch
      exact dumpStr_range s ch hch
    | blob b => rw [dumpsV] at hd; exact absurd hd (by simp)
    | pyobj t => rw [dumpsV] at hd; exact absurd hd (by simp)
    | arr es =>
      rw [dumpsV] at hd
      cases he : dumpsL es with
      | none => rw [he] at hd; exact absurd hd (by simp)
      | some x =>
        rw [he] at hd
        simp only [Option.map_some', Option.some.injEq] at hd
        rw [← hd] at hch hlen
        simp only [List.length_cons, List.length_append, List.length_nil] at hlen
        simp only [List.mem_cons, List.mem_append] at hch
        rcases hch with h | ⟨h | h⟩
        · omega
        · exact (ih f (by omega)).2.1 es x he (by omega) ch h
        · simp at h; omega
    | obj ms =>
      rw [dumpsV] at hd
      cases he : dumpsM ms with
      | none => rw [he] at hd; exact absurd hd (by simp)
      | some x =>
        rw [he] at hd
        simp only [Option.map_some', Option.some.injEq] at hd
        rw [← hd] at hch hlen
        simp only [List.length_cons, List.length_append, List.length_nil] at hlen
        simp only [List.mem_cons, List.mem_append] at hch
        rcases hch with h | ⟨h | h⟩
        · omega
        · exact (ih f (by omega)).2.2 ms x he (by omega) ch h
        · simp at h; omega
  · intro es ds hd hlen ch hch
    obtain ⟨f, rfl⟩ : ∃ f, fuel = f + 1 := ⟨fuel - 1, by omega⟩
    cases es with
    | nil =>
      rw [dumpsL] at hd
      simp only [Option.some.injEq] at hd
      rw [← hd] at hch
      simp at hch
    | cons e t =>
      cases t with
      | nil =>
        rw [dumpsL] at hd
        exact (ih f (by omega)).1 e ds hd (by omega) ch hch
      | cons u t2 =>
        rw [dumpsL] at hd
        case x_1 => simp
        cases he : dumpsV e with
        | none => rw [he] at hd; exact absurd hd (by simp)
        | some dv =>
          rw [he] at hd
          cases ht : dumpsL (u :: t2) with
          | none => rw [ht] at hd; exact absurd hd (by simp)
          | some dt =>
            rw [ht] at hd
            simp at hd
            rw [← hd] at hch hlen
            simp only [List.length_append, List.length_cons] at hlen
            simp only [List.mem_append, List.mem_cons] at hch
            rcases hch with h | h | h | h
            · exact (ih f (by omega)).1 e dv he (by omega) ch h
            · omega
            · omega
            · exact (ih f (by omega)).2.1 (u :: t2) dt ht (by omega) ch h
  · intro ms ds hd hlen ch hch
    obtain ⟨f, rfl⟩ : ∃ f, fuel = f + 1 := ⟨fuel - 1, by omega⟩
    cases ms with
    | nil =>
      rw [dumpsM] at hd
      simp only [Option.some.injEq] at hd
      rw [← hd] at hch
      simp at hch
    | cons kv t =>
      obtain ⟨k, v⟩ := kv
      cases t with
      | nil =>
        rw [dumpsM] at hd
        cases he : dumpsV v with
        | none => rw [he] at hd; exact absurd hd (by simp)
        | some dv =>
          rw [he] at hd
          simp only [Option.map_some', Option.some.injEq] at hd
          rw [← hd] at hch hlen
          simp only [List.length_append, List.length_cons] at hlen
          simp only [List.mem_append, List.mem_cons] at hch
          rcases hch with h | h | h | h
          · exact dumpStr_range k ch h
          · omega
          · omega
          · exact (ih f (by omega)).1 v dv he (by omega) ch h
      | cons kv2 t2 =>
        rw [dumpsM] at hd
        case x_1 => simp
        cases he : dumpsV v with
        | none => rw [he] at hd; exact absurd hd (by simp)
        | some dv =>
          rw [he] at hd
          cases ht : dumpsM (kv2 :: t2) with
          | none => rw [ht] at hd; exact absurd hd (by simp)
          | some dt =>
            rw [ht] at hd
            simp at hd
            rw [← hd] at hch hlen
            simp only [List.length_append, List.length_cons] at hlen
            simp only [List.mem_append, List.mem_cons] at hch
            rcases hch with h | h | h | h | h | h | h
            · exact dumpStr_range k ch h
            · omega
            · omega
            · exact (ih f (by omega)).1 v dv he (by omega) ch h
            · omega
            · omega
            · exact (ih f (by omega)).2.2 (kv2 :: t2) dt ht (by omega) ch h

theorem dumpsV_range (v : JsonValue) (ds : List Nat) (hd : dumpsV v = some ds) :
    ∀ ch ∈ ds, 32 ≤ ch ∧ ch ≤ 126 :=
  (dumps_range_all (ds.length + 1)).1 v ds hd (by omega)

theorem jsonSizePos (v : JsonValue) : 0 < sizeOf v := by
  cases v <;> simp

theorem jlistSizePos (es : List JsonValue) : 0 < sizeOf es := by
  cases es <;> simp

theorem mlistSizePos (ms : List (List Nat × JsonValue)) : 0 < sizeOf ms := by
  cases ms <;> simp

theorem serializable_iff_all : ∀ n : Nat,
    (∀ v : JsonValue, sizeOf v ≤ n → (serializableV v = true ↔ (dumpsV v).isSome = true)) ∧
    (∀ es : List JsonValue, sizeOf es ≤ n → (serializableL es = true ↔ (dumpsL es).isSome = true)) ∧
    (∀ ms : List (List Nat × JsonValue), sizeOf ms ≤ n →
       (serializableM ms = true ↔ (dumpsM ms).isSome = true)) := by
  intro n
  induction n using Nat.strong_induction_on with
  | _ n ih =>
  refine ⟨?_, ?_, ?_⟩
  · intro v hsz
    cases v with
    | null => simp [serializableV, dumpsV]
    | bool b => cases b <;> simp [serializableV, dumpsV]
    | num i => simp [serializableV, dumpsV]
    | str s => simp [serializableV, dumpsV]
    | blob b => simp [serializableV, dumpsV]
    | pyobj t => simp [serializableV, dumpsV]
    | arr es =>
      rw [serializableV, dumpsV]
      have hs : sizeOf es ≤ n - 1 := by
        simp only [JsonValue.arr.sizeOf_spec] at hsz
        omega
      have hn : 0 < n := by
        simp only [JsonValue.arr.sizeOf_spec] at hsz
        have := jlistSizePos es
        omega
      rw [(ih (n - 1) (by omega)).2.1 es hs]
      cases dumpsL es <;> simp
    | obj ms =>
      rw [serializableV, dumpsV]
      have hs : sizeOf ms ≤ n - 1 := by
        simp only [JsonValue.obj.sizeOf_spec] at hsz
        omega
      have hn : 0 < n := by
        simp only [JsonValue.obj.sizeOf_spec] at hsz
        have := mlistSizePos ms
        omega
      rw [(ih (n - 1) (by omega)).2.2 ms hs]
      cases dumpsM ms <;> simp
  · intro es hsz
    cases es with
    | nil => simp [serializableL, dumpsL]
    | cons e t =>
      have hse : sizeOf e ≤ n - 1 ∧ sizeOf t ≤ n - 1 ∧ 0 < n := by
        simp only [List.cons.sizeOf_spec] at hsz
        have h1 := jsonSizePos e
        have h2 := jlistSizePos t
        omega
      rw [serializableL]
      cases t with
      | nil =>
        rw [dumpsL]
        rw [Bool.and_eq_true, (ih (n - 1) (by omega)).1 e hse.1]
        simp [serializableL]
      | cons u t2 =>
        rw [dumpsL]
        case x_1 => simp
        rw [Bool.and_eq_true, (ih (n - 1) (by omega)).1 e hse.1,
            (ih (n - 1) (by omega)).2.1 (u :: t2) hse.2.1]
        cases dumpsV e <;> cases dumpsL (u :: t2) <;> simp
  · intro ms hsz
    cases ms with
    | nil => simp [serializableM, dumpsM]
    | cons kv t =>
      obtain ⟨k, v⟩ := kv
      have hse : sizeOf v ≤ n - 1 ∧ sizeOf t ≤ n - 1 ∧ 0 < n := by
        simp only [List.cons.sizeOf_spec, Prod.mk.sizeOf_spec] at hsz
        have h1 := jsonSizePos v
        have h2 := mlistSizePos t
        omega
      rw [serializableM]
      cases t with
      | nil =>
        rw [dumpsM]
        rw [Bool.and_eq_true, (ih (n - 1) (by omega)).1 v hse.1]
        cases dumpsV v <;> simp [serializableM]
      | cons kv2 t2 =>
        rw [dumpsM]
        case x_1 => simp
        rw [Bool.and_eq_true, (ih (n - 1) (by omega)).1 v hse.1,
            (ih (n - 1) (by omega)).2.2 (kv2 :: t2) hse.2.1]
        cases dumpsV v <;> cases dumpsM (kv2 :: t2) <;> simp

theorem serializableM_iff (ms : List (List Nat × JsonValue)) :
    serializableM ms = true ↔ (dumpsM ms).isSome = true :=
  (serializable_iff_all (sizeOf ms)).2.2 ms (le_refl _)

/-- CLAIM C1 (corrected): the codec round trip
`decode_message (encode_message p)` recovers the payload in semantic
content exactly when `exactRoundTripCond p` holds.  Structured mappings
(whose serialization has no NUL) always round-trip to an equal mapping,
and text round-trips to equal text when text is what comes back; but the
spec's clause "pure bytes round-trip exactly" is false: bytes whose
content is valid NUL-free UTF-8 come back as `text` (or even as a parsed
JSON value), not as the original `bytes` object — see
`codec_bytes_roundtrip_counterexample`. -/
theorem codec_roundtrip_characterization (p : Payload) (wire : List Nat)
    (hwf : WFPayload p) (henc : encodeMessage p = .ok wire) :
    decodedMatches p (decodeMessage wire) ↔ exactRoundTripCond p := by
  cases p with
  | bytes b =>
    rw [encodeMessage] at henc
    simp only [Except.ok.injEq] at henc
    subst henc
    unfold decodeMessage exactRoundTripCond
    cases hu : utf8Decode b with
    | none => simp [decodedMatches, hu]
    | some s =>
      by_cases h0 : 0 ∈ s
      · simp only [h0, if_true]
        simp [decodedMatches, hu, h0]
      · simp only [h0, if_false]
        cases hj : jsonLoads s with
        | some v =>
          simp only [decodedMatches]
          constructor
          · intro hf; exact absurd hf (by simp)
          · rintro (h | ⟨s2, hs2, h02⟩)
            · rw [hu] at h; exact absurd h (by simp)
            · rw [hu] at hs2
              simp only [Option.some.injEq] at hs2
              subst hs2
              exact absurd h02 h0
        | none =>
          simp only [decodedMatches]
          constructor
          · intro hf; exact absurd hf (by simp)
          · rintro (h | ⟨s2, hs2, h02⟩)
            · rw [hu] at h; exact absurd h (by simp)
            · rw [hu] at hs2
              simp only [Option.some.injEq] at hs2
              subst hs2
              exact absurd h02 h0
  | text s =>
    rw [encodeMessage] at henc
    simp only [Except.ok.injEq] at henc
    subst henc
    unfold decodeMessage exactRoundTripCond
    rw [utf8Decode_encode s hwf]
    by_cases h0 : 0 ∈ s
    · simp only [h0, if_true]
      simp [decodedMatches, h0]
    · simp only [h0, if_false]
      cases hj : jsonLoads s with
      | some v =>
        cases v <;> simp [decodedMatches, h0, hj]
      | none =>
        simp [decodedMatches, h0, hj]
  | structured m =>
    rw [encodeMessage] at henc
    cases hd : dumpsV (.obj m) with
    | none => rw [hd] at henc; exact absurd henc (by simp)
    | some ds =>
      rw [hd] at henc
      simp only [Except.ok.injEq] at henc
      subst henc
      have hrange := dumpsV_range (.obj m) ds hd
      have hascii : ∀ c ∈ ds, c < 0x80 := fun c hc => by have := hrange c hc; omega
      have hsc : ∀ c ∈ ds, IsScalar c := fun c hc => by
        have := hrange c hc
        exact ⟨by omega, by omega⟩
      have henceq : utf8Encode ds = ds := utf8Encode_ascii ds hascii
      have hdec : utf8Decode (utf8Encode ds) = some ds := by
        rw [henceq]
        have := utf8Decode_encode ds hsc
        rw [henceq] at this
        exact this
      unfold decodeMessage
      rw [hdec]
      have h0 : ¬ (0 ∈ ds) := fun h => by have := hrange 0 h; omega
      simp only [h0, if_false]
      rw [jsonLoads_dumps (.obj m) ds hd hwf]
      simp [decodedMatches, exactRoundTripCond]

/-- CLAIM C2 (corrected): `decode_message` is total — on every byte
sequence it returns without raising, and the result is classified by the
decode ladder: bytes that are not valid UTF-8 (or whose text contains a
NUL) come back as `bytes`, text that is not JSON comes back as `text`,
and JSON text comes back as the parsed value.  The spec's clause that the
result is one of bytes / text / *mapping* is false: `json.loads` accepts
any top-level JSON value, so the result can also be an int, list, bool,
or None — see `decode_three_forms_counterexample`. -/
theorem decode_total_classification (bs : List Nat) :
    decodeMessage bs = .bytes bs ∨
    ∃ s, utf8Decode bs = some s ∧
      ((0 ∈ s ∧ decodeMessage bs = .bytes bs) ∨
       (jsonLoads s = none ∧ decodeMessage bs = .text s) ∨
       (∃ v, jsonLoads s = some v ∧ decodeMessage bs = .json v)) := by
  unfold decodeMessage
  cases hu : utf8Decode bs with
  | none => exact Or.inl rfl
  | some s =>
    refine Or.inr ⟨s, rfl, ?_⟩
    by_cases h0 : 0 ∈ s
    · exact Or.inl ⟨h0, by simp [h0]⟩
    · cases hj : jsonLoads s with
      | none => exact Or.inr (Or.inl ⟨rfl, by simp [h0, hj]⟩)
      | some v => exact Or.inr (Or.inr ⟨v, rfl, by simp [h0, hj]⟩)

theorem codec_bytes_roundtrip_counterexample :
    encodeMessage (.bytes [104, 101, 108, 108, 111]) = .ok [104, 101, 108, 108, 111] ∧
    decodeMessage [104, 101, 108, 108, 111] = .text [104, 101, 108, 108, 111] ∧
    Decoded.text [104, 101, 108, 108, 111] ≠ Decoded.bytes [104, 101, 108, 108, 111] := by
  refine ⟨rfl, rfl, ?_⟩
  intro h
  exact absurd h (by simp)

theorem codec_roundtrip_characterization_witness :
    WFPayload (.structured [([97], JsonValue.num 1)]) ∧
    encodeMessage (.structured [([97], JsonValue.num 1)]) =
      .ok [123, 34, 97, 34, 58, 32, 49, 125] ∧
    (decodedMatches (.structured [([97], JsonValue.num 1)])
       (decodeMessage [123, 34, 97, 34, 58, 32, 49, 125]) ↔
     exactRoundTripCond (.structured [([97], JsonValue.num 1)])) :=
  ⟨rfl, rfl, codec_roundtrip_characterization _ _ rfl rfl⟩

theorem decode_three_forms_counterexample :
    decodeMessage [49, 50, 51] = .json (.num 123) ∧
    ¬ isPayloadForm (decodeMessage [49, 50, 51]) := by
  refine ⟨rfl, ?_⟩
  intro h
  rw [show decodeMessage [49, 50, 51] = .json (.num 123) from rfl] at h
  simp [isPayloadForm] at h

/-- CLAIM C8 (confirmed): `encode_message` passes bytes through
unchanged, UTF-8-encodes text, JSON-serializes then UTF-8-encodes a
structured mapping, and raises `SerializationError` exactly when the
mapping contains a non-serializable value. -/
theorem encode_spec :
    (∀ b, encodeMessage (.bytes b) = .ok b) ∧
    (∀ s, encodeMessage (.text s) = .ok (utf8Encode s)) ∧
    (∀ m, serializableM m = true →
       ∃ ds, dumpsV (.obj m) = some ds ∧ encodeMessage (.structured m) = .ok (utf8Encode ds)) ∧
    (∀ m, serializableM m = false →
       encodeMessage (.structured m) = .error .serializationError) := by
  refine ⟨fun b => rfl, fun s => rfl, ?_, ?_⟩
  · intro m hser
    have hiss := (serializableM_iff m).mp hser
    cases hm : dumpsM m with
    | none => rw [hm] at hiss; exact absurd hiss (by simp)
    | some x =>
      refine ⟨123 :: (x ++ [125]), ?_, ?_⟩
      · rw [dumpsV, hm]
        rfl
      · rw [encodeMessage, dumpsV, hm]
        rfl
  · intro m hser
    have hm : dumpsM m = none := by
      cases hm : dumpsM m with
      | none => rfl
      | some x =>
        have : (dumpsM m).isSome = true := by rw [hm]; rfl
        rw [← serializableM_iff m] at this
        rw [hser] at this
        exact absurd this (by simp)
    rw [encodeMessage, dumpsV, hm]
    rfl

theorem encode_spec_witness :
    serializableM [([97], JsonValue.num 1)] = true ∧
    serializableM [([97], JsonValue.blob [1, 2])] = false ∧
    (∃ ds, dumpsV (.obj [([97], JsonValue.num 1)]) = some ds ∧
       encodeMessage (.structured [([97], JsonValue.num 1)]) = .ok (utf8Encode ds)) ∧
    encodeMessage (.structured [([97], JsonValue.blob [1, 2])]) =
      .error .serializationError :=
  ⟨rfl, rfl, encode_spec.2.2.1 _ rfl, encode_spec.2.2.2 _ rfl⟩

theorem lookupFut_setFut_self (tbl : List (List Nat × FutureState)) :
    ∀ rid nf, lookupFut tbl rid ≠ none →
    lookupFut (setFut tbl rid nf) rid = some nf := by
  induction tbl with
  | nil => intro rid nf h; exact absurd rfl h
  | cons kf rest ih =>
    intro rid nf h
    obtain ⟨k, f⟩ := kf
    by_cases hk : k = rid
    · subst hk
      simp [setFut, lookupFut]
    · simp only [setFut, hk, if_false]
      simp only [lookupFut, hk, if_false]
      simp only [lookupFut, hk, if_false] at h
      exact ih rid nf h

theorem lookupFut_setFut_other (tbl : List (List Nat × FutureState)) :
    ∀ rid rid2 nf, rid2 ≠ rid →
    lookupFut (setFut tbl rid nf) rid2 = lookupFut tbl rid2 := by
  induction tbl with
  | nil => intro rid rid2 nf _; rfl
  | cons kf rest ih =>
    intro rid rid2 nf hne
    obtain ⟨k, f⟩ := kf
    by_cases hk : k = rid
    · subst hk
      simp only [setFut, if_pos rfl]
      have h2 : ¬ (k = rid2) := fun h => hne h.symm
      simp only [lookupFut, h2, if_false]
    · simp only [setFut, hk, if_false]
      by_cases hk2 : k = rid2
      · simp only [lookupFut, hk2, if_true, if_pos]
      · simp only [lookupFut, hk2, if_false]
        exact ih rid rid2 nf hne

/-- CLAIM C4 (confirmed): in `_read_loop`, a structured mapping whose
`_request_id` equals a pending waiter's id resolves exactly that waiter's
future (every other entry is untouched) and is consumed as a reply: it is
never forwarded to the callbacks or the inbound queue.  A mapping whose
id matches no pending waiter, and a mapping without the key at all, is
delivered as a normal message: all callbacks run on it and it is
enqueued. -/
theorem read_loop_request_correlation :
    (∀ (st : SessionState) (m : List (List Nat × JsonValue)) (rid : List Nat),
      lookupMember m ridKey = some (.str rid) →
      (lookupFut st.pending rid = some .pending →
        readLoopStep st (.json (.obj m)) =
          ({ st with pending := setFut st.pending rid (.resolved (.json (.obj m))) },
           .resolvedWaiter rid) ∧
        lookupFut (setFut st.pending rid (.resolved (.json (.obj m)))) rid =
          some (.resolved (.json (.obj m))) ∧
        (∀ rid2, rid2 ≠ rid →
          lookupFut (setFut st.pending rid (.resolved (.json (.obj m)))) rid2 =
            lookupFut st.pending rid2)) ∧
      (lookupFut st.pending rid = none →
        readLoopStep st (.json (.obj m)) =
          ({ st with queue := st.queue ++ [.json (.obj m)] },
           .delivered st.callbacks (.json (.obj m))))) ∧
    (∀ (st : SessionState) (m : List (List Nat × JsonValue)),
      lookupMember m ridKey = none →
      readLoopStep st (.json (.obj m)) =
        ({ st with queue := st.queue ++ [.json (.obj m)] },
         .delivered st.callbacks (.json (.obj m)))) := by
  constructor
  · intro st m rid hid
    constructor
    · intro hpend
      refine ⟨?_, ?_, ?_⟩
      · simp only [readLoopStep, hid, hpend]
      · exact lookupFut_setFut_self st.pending rid _ (by rw [hpend]; simp)
      · intro rid2 hne
        exact lookupFut_setFut_other st.pending rid rid2 _ hne
    · intro hnone
      simp only [readLoopStep, hid, hnone]
  · intro st m hid
    simp only [readLoopStep, hid]

theorem read_loop_request_correlation_witness :
    lookupMember [(ridKey, JsonValue.str [82])] ridKey = some (.str [82]) ∧
    lookupFut [([82], FutureState.pending)] [82] = some .pending ∧
    readLoopStep ⟨false, true, [([82], .pending)], [], [7]⟩
        (.json (.obj [(ridKey, .str [82])])) =
      (⟨false, true, [([82], .resolved (.json (.obj [(ridKey, .str [82])])))], [], [7]⟩,
       .resolvedWaiter [82]) := by
  refine ⟨rfl, rfl, ?_⟩
  have h := (read_loop_request_correlation.1 ⟨false, true, [([82], .pending)], [], [7]⟩
    [(ridKey, .str [82])] [82] rfl).1 rfl
  exact h.1

/-- CLAIM C10 (second reply for an id whose waiter is already resolved
kills the receive loop). -/
theorem read_loop_second_reply_breaks (st : SessionState)
    (m : List (List Nat × JsonValue)) (rid : List Nat) (v : Decoded)
    (hid : lookupMember m ridKey = some (.str rid))
    (hres : lookupFut st.pending rid = some (.resolved v))
    (hopen : st.closed = false) (halive : st.readTaskAlive = true) :
    readLoopStep st (.json (.obj m)) =
      ({ st with readTaskAlive := false }, .loopBroken) ∧
    (∀ rest, readLoop st (.json (.obj m) :: rest) =
      ({ st with readTaskAlive := false }, [.loopBroken])) := by
  have hstep : readLoopStep st (.json (.obj m)) =
      ({ st with readTaskAlive := false }, .loopBroken) := by
    simp only [readLoopStep, hid, hres]
    simp [hopen]
  refine ⟨hstep, ?_⟩
  intro rest
  rw [readLoop]
  rw [hopen, halive]
  rw [hstep]
  simp [hopen]

theorem read_loop_second_reply_breaks_witness :
    lookupMember [(ridKey, JsonValue.str [82])] ridKey = some (.str [82]) ∧
    lookupFut [([82], FutureState.resolved (.json (.obj [])))] [82] =
      some (.resolved (.json (.obj []))) ∧
    readLoop ⟨false, true, [([82], .resolved (.json (.obj [])))], [], []⟩
        [.json (.obj [(ridKey, .str [82])]), .text [120]] =
      (⟨false, false, [([82], .resolved (.json (.obj [])))], [], []⟩, [.loopBroken]) := by
  refine ⟨rfl, rfl, ?_⟩
  have h := (read_loop_second_reply_breaks
    ⟨false, true, [([82], .resolved (.json (.obj [])))], [], []⟩
    [(ridKey, .str [82])] [82] (.json (.obj [])) rfl rfl rfl rfl).2 [.text [120]]
  exact h

/-- CLAIM C6 (closed-session behavior of `send`, `request`, iteration). -/
theorem closed_session_operations (st : SessionState) (hclosed : st.closed = true) :
    (∀ p, sendCall st p = .closedErr) ∧
    (∀ rid p, requestStart st rid p = .closedErr) ∧
    anextCall st = (.stopIteration, st) := by
  refine ⟨?_, ?_, ?_⟩
  · intro p
    rw [sendCall, hclosed]
    rfl
  · intro rid p
    rw [requestStart, hclosed]
    rfl
  · rw [anextCall, hclosed]
    rfl

theorem closed_session_operations_witness :
    (⟨true, false, [], [], []⟩ : SessionState).closed = true ∧
    sendCall ⟨true, false, [], [], []⟩ (.text [104]) = .closedErr ∧
    requestStart ⟨true, false, [], [], []⟩ [82] (.text [104]) = .closedErr ∧
    anextCall ⟨true, false, [], [], []⟩ = (.stopIteration, ⟨true, false, [], [], []⟩) := by
  have h := closed_session_operations ⟨true, false, [], [], []⟩ rfl
  exact ⟨rfl, h.1 _, h.2.1 _ _, h.2.2⟩

/-- CLAIM C3 (code bug): `__aexit__` never resolves pending waiters.
After `sessionExit` the waiter is still pending, the receive loop
processes nothing, and every session operation raises immediately,
so nothing can ever resolve the waiter: the `request` caller awaiting it
hangs instead of failing with a terminal error. -/
theorem session_exit_leaves_waiter_pending :
    ∀ (st : SessionState) (rid : List Nat),
    lookupFut st.pending rid = some .pending →
    lookupFut (sessionExit st).pending rid = some .pending ∧
    (sessionExit st).closed = true ∧
    (∀ msgs, readLoop (sessionExit st) msgs = (sessionExit st, [])) ∧
    (∀ p, sendCall (sessionExit st) p = .closedErr) ∧
    (∀ rid2 p, requestStart (sessionExit st) rid2 p = .closedErr) ∧
    anextCall (sessionExit st) = (.stopIteration, sessionExit st) := by
  intro st rid hpend
  refine ⟨hpend, rfl, ?_, ?_, ?_, ?_⟩
  · intro msgs
    cases msgs with
    | nil => rfl
    | cons m rest =>
      rw [readLoop]
      rfl
  · intro p
    rw [sendCall]
    rfl
  · intro rid2 p
    rw [requestStart]
    rfl
  · rw [anextCall]
    rfl

theorem session_exit_leaves_waiter_pending_witness :
    lookupFut ([([82], FutureState.pending)]) [82] = some .pending ∧
    lookupFut (sessionExit ⟨false, true, [([82], .pending)], [], []⟩).pending [82] =
      some .pending ∧
    (sessionExit ⟨false, true, [([82], .pending)], [], []⟩).closed = true := by
  have h := session_exit_leaves_waiter_pending ⟨false, true, [([82], .pending)], [], []⟩ [82] rfl
  exact ⟨rfl, h.1, h.2.1⟩

/-- CLAIM C5 (code bug): `await self.send(payload)` sits outside the
`try`/`finally` that pops the waiter, so a `SerializationError` raised
while encoding the tagged payload leaves the request id in
`_pending_requests`.  Concrete run: `request` with the mapping
`("x": <set()>)` on an open session. -/
theorem request_send_failure_leaks_waiter :
    requestStart ⟨false, true, [], [], []⟩ [82]
        (.structured [([120], JsonValue.pyobj 0)]) =
      .sendRaised ⟨false, true, [([82], .pending)], [], []⟩ ∧
    lookupFut [([82], FutureState.pending)] [82] = some .pending := by
  constructor
  · rfl
  · rfl

/-- The happy and timeout paths of `request` do pop the table entry
(`finally`): of the completion paths, only the pre-`try` send-failure
path can leave the waiter behind. -/
theorem request_finish_pops_entry (st : SessionState) (rid : List Nat) :
    (∀ v, requestFinish st rid (.replied v) =
      .success v { st with pending := popFut st.pending rid }) ∧
    requestFinish st rid .timedOut =
      .timeoutErr { st with pending := popFut st.pending rid } :=
  ⟨fun v => rfl, rfl⟩

theorem scanFiltered_eq_find (hs : List HandlerReg) (msg : Decoded) :
    scanFiltered hs msg = (hs.find? (isFilteredMatch msg)).map (fun h => h.hid) := by
  induction hs with
  | nil => rfl
  | cons h t ih =>
    cases hd : h.discriminator with
    | none =>
      have hm : isFilteredMatch msg h = false := by
        unfold isFilteredMatch
        rw [hd]
      rw [scanFiltered, hd, List.find?_cons_of_neg _ (by rw [hm]; simp), ih]
    | some d =>
      rw [scanFiltered, hd]
      dsimp only
      by_cases hf : isFilteredMsg msg d h.value = true
      · have hm : isFilteredMatch msg h = true := by
          unfold isFilteredMatch
          rw [hd]
          exact hf
        rw [if_pos hf, List.find?_cons_of_pos _ hm]
        rfl
      · have hm : isFilteredMatch msg h = false := by
          unfold isFilteredMatch
          rw [hd]
          exact Bool.not_eq_true _ ▸ eq_false_of_ne_true hf
        rw [if_neg hf, List.find?_cons_of_neg _ (by rw [hm]; simp), ih]

theorem findCatchAll_eq_find (hs : List HandlerReg) :
    findCatchAll hs =
      (hs.find? (fun h => h.discriminator.isNone)).map (fun h => h.hid) := by
  induction hs with
  | nil => rfl
  | cons h t ih =>
    cases hd : h.discriminator with
    | none =>
      rw [findCatchAll, hd, List.find?_cons_of_pos _ (by rw [hd]; rfl)]
      rfl
    | some d =>
      rw [findCatchAll, hd, List.find?_cons_of_neg _ (by rw [hd]; simp), ih]

/-- CLAIM C7 (confirmed): dispatch scans the filtered registrations in
registration order and invokes the first one whose discriminator matches
the structured message (first match wins, scanning stops); when none
matches, the first-registered catch-all is invoked if present, else the
message is dropped with a no-handler warning. -/
theorem dispatch_first_match_characterization (hs : List HandlerReg) (msg : Decoded) :
    runDispatch hs msg =
      match (hs.find? (isFilteredMatch msg)).map (fun h => h.hid) with
      | some i => .handled i
      | none =>
        match (hs.find? (fun h => h.discriminator.isNone)).map (fun h => h.hid) with
        | some c => .catchAllInvoked c
        | none => .droppedWithWarning := by
  rw [runDispatch, scanFiltered_eq_find, findCatchAll_eq_find]

/-- CLAIM C9 (confirmed): once the accept loop has terminated with an
error, the very next iteration of the multiplexer's message stream
re-raises it with zero further waiting, whatever sits in the fan-in
queue; while the accept loop is alive every iteration waits at most one
poll interval (0.1 s) on the queue; hence a run delivers exactly the
messages that arrived before the failure and then raises the accept
loop's error to the consumer — the failure is fatal to the whole
multiplexer. -/
theorem mux_accept_failure_propagation :
    (∀ (ls : ListenerState) (e : Nat) (arrival : Option (Nat × Decoded))
       (tv : Option ℚ),
       ls.done = true → ls.exc = some e →
       muxIteration ls arrival = .raised e ∧ iterationWait ls tv = 0) ∧
    (∀ (ls : ListenerState) (tv : Option ℚ), ls.done = false →
       iterationWait ls tv ≤ pollTimeout) ∧
    (∀ rounds (e : Nat), muxRun rounds e = (rounds.filterMap id, .raised e)) := by
  refine ⟨?_, ?_, ?_⟩
  · intro ls e arrival tv hdone hexc
    constructor
    · rw [muxIteration.eq_def, hdone, hexc]
      rfl
    · rw [iterationWait.eq_def, hdone]
      rfl
  · intro ls tv hdone
    rw [iterationWait.eq_def, hdone]
    simp only [Bool.false_eq_true, if_false]
    cases tv with
    | none => simp
    | some t => simp [min_le_right]
  · intro rounds e
    induction rounds with
    | nil => rfl
    | cons r rest ih =>
      cases r with
      | none => rw [muxRun, ih]; rfl
      | some m => rw [muxRun, ih]; rfl

theorem mux_accept_failure_propagation_witness :
    (⟨true, some 3⟩ : ListenerState).done = true ∧
    (⟨true, some 3⟩ : ListenerState).exc = some 3 ∧
    muxIteration ⟨true, some 3⟩ (some (0, .text [104])) = .raised 3 ∧
    iterationWait ⟨true, some 3⟩ (some (1 / 20)) = 0 ∧
    (⟨false, none⟩ : ListenerState).done = false ∧
    iterationWait ⟨false, none⟩ none ≤ pollTimeout ∧
    muxRun [some (0, .text [104]), none] 3 = ([(0, .text [104])], .raised 3) :=
  ⟨rfl, rfl,
   (mux_accept_failure_propagation.1 ⟨true, some 3⟩ 3 (some (0, .text [104]))
     (some (1 / 20)) rfl rfl).1,
   (mux_accept_failure_propagation.1 ⟨true, some 3⟩ 3 (some (0, .text [104]))
     (some (1 / 20)) rfl rfl).2,
   rfl,
   mux_accept_failure_propagation.2.1 ⟨false, none⟩ none rfl,
   mux_accept_failure_propagation.2.2 [some (0, .text [104]), none] 3⟩

end PAMessaging
